import Mathlib

/-!
Verification of the prop-amm-challenge simulation core.

This file is a shallow embedding, in Lean 4, of the parts of the repository
that the specification's claims are about:

* `crates/shared/src/nano.rs` — the fixed-point ("nano") codec;
* `crates/shared/src/instruction.rs` — the quote / after-trade frame codec;
* `crates/shared/src/normalizer.rs` — the reference constant-product curve;
* `crates/sim/src/amm.rs` — AMM state with `quote_*` / `execute_*`;
* `crates/sim/src/router.rs` — the order router's split search;
* `crates/sim/src/arbitrageur.rs` — the normalizer closed-form arbitrage;
* `crates/sim/src/curve_checks.rs` — the submission shape validator.

Modelling conventions.  Machine bytes and `u64`/`u128` values are `Nat`
(with explicit `% 2 ^ 64` where the source truncates).  IEEE-754 doubles
are modelled by the type `F` below: an exact rational together with the
three special values `nan`, `inf` (+∞) and `ninf` (−∞).  In the structural
embedding used by the AMM, router, arbitrageur and validator sections —
where only guard structure, comparisons and data flow matter — arithmetic
on finite values is exact rational arithmetic, while the propagation of
the special values and the comparison semantics (`nan` compares false with
everything) follow IEEE-754, and the `as u64` cast follows Rust's
saturating semantics.  The nano codec's accuracy claim, by contrast, is a
statement about f64 rounding itself, so the codec is additionally modelled
with binary64 round-to-nearest-even made explicit (`rne`, `fl`, `F.mulR`,
`F.divR`, `f64_to_nano_rounded`, `nano_to_f64_rounded` below).  Stateful
Rust methods become functions returning a pair of result and updated
state.  The pluggable quote backend (`Backend::Bpf` / `Backend::Native`)
is an abstract state type `σ` with a call function; its scratch state may
change on any call, which is what makes the frame-effect theorems
non-vacuous.
-/

/-- Idealised IEEE-754 double: exact rational plus the special values. -/
inductive F where
  | fin : ℚ → F
  | inf : F
  | ninf : F
  | nan : F
deriving DecidableEq

namespace F

/-- `f64::is_finite`. -/
def isFinite : F → Bool
  | fin _ => true
  | _ => false

/-- IEEE `<=` (false whenever either side is NaN). -/
def le : F → F → Prop
  | nan, _ => False
  | _, nan => False
  | fin a, fin b => a ≤ b
  | fin _, inf => True
  | fin _, ninf => False
  | inf, inf => True
  | inf, fin _ => False
  | inf, ninf => False
  | ninf, _ => True

/-- IEEE `<` (false whenever either side is NaN). -/
def lt : F → F → Prop
  | nan, _ => False
  | _, nan => False
  | fin a, fin b => a < b
  | fin _, inf => True
  | fin _, ninf => False
  | inf, _ => False
  | ninf, ninf => False
  | ninf, _ => True

instance : ∀ x y : F, Decidable (le x y) := by
  intro x y
  cases x <;> cases y <;> simp only [le] <;> infer_instance

instance : ∀ x y : F, Decidable (lt x y) := by
  intro x y
  cases x <;> cases y <;> simp only [lt] <;> infer_instance

/-- IEEE addition on the idealised doubles (finite part exact). -/
def add : F → F → F
  | nan, _ => nan
  | _, nan => nan
  | fin a, fin b => fin (a + b)
  | fin _, inf => inf
  | fin _, ninf => ninf
  | inf, inf => inf
  | inf, fin _ => inf
  | inf, ninf => nan
  | ninf, ninf => ninf
  | ninf, fin _ => ninf
  | ninf, inf => nan

/-- IEEE subtraction on the idealised doubles (finite part exact). -/
def sub : F → F → F
  | nan, _ => nan
  | _, nan => nan
  | fin a, fin b => fin (a - b)
  | fin _, inf => ninf
  | fin _, ninf => inf
  | inf, inf => nan
  | inf, fin _ => inf
  | inf, ninf => inf
  | ninf, ninf => nan
  | ninf, fin _ => ninf
  | ninf, inf => ninf

/-- IEEE multiplication on the idealised doubles (finite part exact;
`±∞ · 0 = nan`). -/
def mul : F → F → F
  | nan, _ => nan
  | _, nan => nan
  | fin a, fin b => fin (a * b)
  | fin a, inf => if a = 0 then nan else if 0 < a then inf else ninf
  | fin a, ninf => if a = 0 then nan else if 0 < a then ninf else inf
  | inf, fin b => if b = 0 then nan else if 0 < b then inf else ninf
  | inf, inf => inf
  | inf, ninf => ninf
  | ninf, fin b => if b = 0 then nan else if 0 < b then ninf else inf
  | ninf, inf => ninf
  | ninf, ninf => inf

/-- IEEE division on the idealised doubles (finite part exact; signed zeros
are collapsed to `0`, so `x / ±∞ = 0` and `x / 0` is `±∞` by the sign of
`x`, `0 / 0 = nan`). -/
def div : F → F → F
  | nan, _ => nan
  | _, nan => nan
  | fin a, fin b =>
      if b = 0 then (if a = 0 then nan else if 0 < a then inf else ninf)
      else fin (a / b)
  | fin _, inf => fin 0
  | fin _, ninf => fin 0
  | inf, fin b => if 0 ≤ b then inf else ninf
  | inf, inf => nan
  | inf, ninf => nan
  | ninf, fin b => if 0 ≤ b then ninf else inf
  | ninf, inf => nan
  | ninf, ninf => nan

/-- `f64::clamp(lo, hi)` for rational bounds `lo ≤ hi` (NaN stays NaN). -/
def clamp (x : F) (lo hi : ℚ) : F :=
  match x with
  | fin q => fin (max lo (min q hi))
  | inf => fin hi
  | ninf => fin lo
  | nan => nan

theorem isFinite_iff {x : F} : x.isFinite = true ↔ ∃ q, x = fin q := by
  cases x <;> simp [isFinite]

theorem le_fin_fin {a b : ℚ} : le (fin a) (fin b) ↔ a ≤ b := Iff.rfl

theorem lt_fin_fin {a b : ℚ} : lt (fin a) (fin b) ↔ a < b := Iff.rfl

end F

/-!
## Fixed-point codec — `crates/shared/src/nano.rs`

```rust
pub const NANO_SCALE_F64: f64 = 1_000_000_000.0;
pub fn f64_to_nano(value: f64) -> u64 { (value * NANO_SCALE_F64) as u64 }
pub fn nano_to_f64(value: u64) -> f64 { value as f64 / NANO_SCALE_F64 }
```
-/

def NANO_SCALE : ℚ := 1000000000

def U64_MAX : ℕ := 2 ^ 64 - 1

/-- Rust's saturating `as u64` cast on a double: NaN and everything `≤ 0`
go to `0`, `+∞` and everything `≥ 2^64` go to `u64::MAX`, and finite
values in range are truncated toward zero. -/
def cast_u64 : F → ℕ
  | F.nan => 0
  | F.ninf => 0
  | F.inf => U64_MAX
  | F.fin q => if q ≤ 0 then 0 else if (2 : ℚ) ^ 64 ≤ q then U64_MAX else ⌊q⌋.toNat

/-- `f64_to_nano` from `nano.rs`, with the f64 product `value * 1e9` taken
as exact.  This exact-product version is the one the AMM / arbitrageur
plumbing below threads through, where only the saturating-cast structure
matters; the codec's own accuracy property depends on the product's
rounding and is treated by `f64_to_nano_rounded` below. -/
def f64_to_nano (value : F) : ℕ := cast_u64 (F.mul value (F.fin NANO_SCALE))

/-- `nano_to_f64` from `nano.rs` with `u64 as f64` and the division taken
as exact; the rounding-faithful version is `nano_to_f64_rounded` below. -/
def nano_to_f64 (value : ℕ) : F := F.fin ((value : ℚ) / NANO_SCALE)

/-!
### Round-to-nearest model of the codec arithmetic

The round-trip accuracy of the codec is a statement about binary64
rounding: `f64_to_nano` computes `(value * 1e9) as u64`, and the f64
product rounds to 53 significant bits — one ulp is 2048 nanos for products
in `[2^63, 2^64)`, which is more than half the spacing `2^-20 * 1e9 ≈
953.7` nanos of the doubles `v` near `9.2e9`.  The definitions below model
the two `nano.rs` functions with every arithmetic step rounded: `rne`
rounds a rational to the nearest integer (ties to even) and `fl` rounds a
rational to the nearest 53-bit dyadic, the binade being fixed by
`Int.log 2`.  `fl` agrees with binary64 round-to-nearest-even on `0` and
on all magnitudes in `[2^-1022, 2^1024)`; below `2^-1022` it keeps full
53-bit precision instead of the subnormal grid, which cannot affect the
codec functions: a product below `2^-1022` truncates to `0` nanos under
either rounding, and every other value `fl` is applied to in this file is
`0` or has magnitude `≥ 1/2`.  `roundF` applies `fl` to the finite result
of an exact operation and overflows to `±∞` from `2^1024` on (the rounding
grid point that follows the largest finite double `2^1024 - 2^971`), so
`F.mulR` / `F.divR` are IEEE-correctly-rounded multiplication and
division, and `fl` itself is the `u64 as f64` conversion. -/

/-- Round to the nearest integer, ties to even. -/
def rne (y : ℚ) : ℤ :=
  if y - ⌊y⌋ < 1 / 2 then ⌊y⌋
  else if 1 / 2 < y - ⌊y⌋ then ⌊y⌋ + 1
  else if ⌊y⌋ % 2 = 0 then ⌊y⌋ else ⌊y⌋ + 1

/-- Binary64 round-to-nearest-even on an exact rational: round to the
nearest multiple of `2^(e-52)` where `2^e ≤ |x| < 2^(e+1)`. -/
def fl (x : ℚ) : ℚ :=
  if x = 0 then 0
  else if 0 < x then
    (2 : ℚ) ^ (Int.log 2 x - 52) * (rne (x / (2 : ℚ) ^ (Int.log 2 x - 52)) : ℚ)
  else
    -((2 : ℚ) ^ (Int.log 2 (-x) - 52) * (rne (-x / (2 : ℚ) ^ (Int.log 2 (-x) - 52)) : ℚ))

/-- Round the finite result of an exact f64 operation, overflowing to
`±∞` at the IEEE threshold `2^1024`; special values pass through. -/
def roundF : F → F
  | F.fin q =>
      if (2 : ℚ) ^ 1024 ≤ |fl q| then (if 0 < q then F.inf else F.ninf) else F.fin (fl q)
  | z => z

/-- Correctly rounded f64 multiplication. -/
def F.mulR (x y : F) : F := roundF (F.mul x y)

/-- Correctly rounded f64 division. -/
def F.divR (x y : F) : F := roundF (F.div x y)

/-- `f64_to_nano` from `nano.rs` with the product rounding modelled:
`(value * NANO_SCALE_F64) as u64`. -/
def f64_to_nano_rounded (value : F) : ℕ := cast_u64 (F.mulR value (F.fin NANO_SCALE))

/-- `nano_to_f64` from `nano.rs` with both rounding steps modelled:
`value as f64` rounds the integer to the nearest double and the division
by `NANO_SCALE_F64` rounds its exact quotient. -/
def nano_to_f64_rounded (value : ℕ) : F :=
  F.divR (F.fin (fl (value : ℚ))) (F.fin NANO_SCALE)

lemma rne_sub_abs_le (y : ℚ) : |(rne y : ℚ) - y| ≤ 1 / 2 := by
  have h0 : ((⌊y⌋ : ℤ) : ℚ) ≤ y := Int.floor_le y
  have h1 : y < ((⌊y⌋ : ℤ) : ℚ) + 1 := Int.lt_floor_add_one y
  unfold rne
  split_ifs with ha hb hc
  · rw [abs_le]; constructor <;> linarith
  · rw [not_lt] at ha
    rw [abs_le]; push_cast; constructor <;> linarith
  · rw [not_lt] at ha hb
    rw [abs_le]; constructor <;> linarith
  · rw [not_lt] at ha hb
    rw [abs_le]; push_cast; constructor <;> linarith

lemma rne_intCast (n : ℤ) : rne ((n : ℤ) : ℚ) = n := by
  unfold rne
  rw [Int.floor_intCast]
  rw [if_pos (by norm_num)]

lemma rne_eq_add_one_of (y : ℚ) (c : ℤ) (hc : ⌊y⌋ = c) (h : 1 / 2 < y - (c : ℚ)) :
    rne y = c + 1 := by
  unfold rne
  rw [hc, if_neg (not_lt.mpr h.le), if_pos h]

lemma fl_zero : fl 0 = 0 := by rw [fl, if_pos rfl]

lemma fl_eq_of_bounds (x : ℚ) (e : ℤ) (h1 : (2 : ℚ) ^ e ≤ x) (h2 : x < (2 : ℚ) ^ (e + 1)) :
    fl x = (2 : ℚ) ^ (e - 52) * (rne (x / (2 : ℚ) ^ (e - 52)) : ℚ) := by
  have hx : 0 < x := lt_of_lt_of_le (zpow_pos (by norm_num) e) h1
  have hb : (1 : ℕ) < 2 := by norm_num
  have hlog : Int.log 2 x = e := by
    have hle : e ≤ Int.log 2 x := by
      rw [← Int.zpow_le_iff_le_log hb hx]
      exact_mod_cast h1
    have hlt : Int.log 2 x < e + 1 := by
      rw [← Int.lt_zpow_iff_log_lt hb hx]
      exact_mod_cast h2
    omega
  rw [fl, if_neg hx.ne', if_pos hx, hlog]

lemma fl_sub_abs_le (x : ℚ) (hx : 0 < x) : |fl x - x| ≤ x / 2 ^ 53 := by
  have hb : (1 : ℕ) < 2 := by norm_num
  have hle : (2 : ℚ) ^ Int.log 2 x ≤ x := by exact_mod_cast Int.zpow_log_le_self hb hx
  rw [fl, if_neg hx.ne', if_pos hx]
  set e := Int.log 2 x with he
  set y := x / (2 : ℚ) ^ (e - 52) with hy
  have hgpos : (0 : ℚ) < (2 : ℚ) ^ (e - 52) := zpow_pos (by norm_num) _
  have key : (2 : ℚ) ^ (e - 52) * (rne y : ℚ) - x
      = (2 : ℚ) ^ (e - 52) * ((rne y : ℚ) - y) := by
    have hxy : (2 : ℚ) ^ (e - 52) * y = x := by
      rw [hy]; field_simp
    rw [mul_sub, hxy]
  rw [key, abs_mul, abs_of_pos hgpos]
  have h2 : |(rne y : ℚ) - y| ≤ 1 / 2 := rne_sub_abs_le y
  have hpow : (2 : ℚ) ^ (e - 52) * (1 / 2) = (2 : ℚ) ^ e / 2 ^ 53 := by
    rw [zpow_sub₀ (two_ne_zero : (2 : ℚ) ≠ 0)]
    rw [show ((2 : ℚ) ^ (52 : ℤ)) = 2 ^ 52 from by norm_num]
    ring
  calc (2 : ℚ) ^ (e - 52) * |(rne y : ℚ) - y| ≤ (2 : ℚ) ^ (e - 52) * (1 / 2) :=
        mul_le_mul_of_nonneg_left h2 hgpos.le
    _ = (2 : ℚ) ^ e / 2 ^ 53 := hpow
    _ ≤ x / 2 ^ 53 := by gcongr

lemma fl_sub_abs_le' (x : ℚ) (hx : 0 ≤ x) : |fl x - x| ≤ x / 2 ^ 53 := by
  rcases eq_or_lt_of_le hx with h | h
  · rw [← h, fl_zero]; norm_num
  · exact fl_sub_abs_le x h

lemma fl_nonneg (x : ℚ) (hx : 0 ≤ x) : 0 ≤ fl x := by
  have h := fl_sub_abs_le' x hx
  rw [abs_le] at h
  have h2 : x / 2 ^ 53 ≤ x := div_le_self hx (by norm_num)
  linarith [h.1]

lemma fl_eq_self_of_int_mul (x : ℚ) (e : ℤ) (h1 : (2 : ℚ) ^ e ≤ x) (h2 : x < (2 : ℚ) ^ (e + 1))
    (n : ℤ) (hn : x = (2 : ℚ) ^ (e - 52) * (n : ℚ)) : fl x = x := by
  rw [fl_eq_of_bounds x e h1 h2]
  rw [hn]
  rw [show (2 : ℚ) ^ (e - 52) * (n : ℚ) / (2 : ℚ) ^ (e - 52) = (n : ℚ) from by
    field_simp]
  rw [rne_intCast]

lemma roundF_fin (q : ℚ) (h : |fl q| < 2 ^ 1024) : roundF (F.fin q) = F.fin (fl q) := by
  simp only [roundF]
  rw [if_neg (not_le.mpr h)]

lemma cast_u64_fin_bound (P p : ℚ) (hp : 0 < p) (hp64 : p < 2 ^ 64)
    (hP : |P - p| ≤ p / 2 ^ 53) :
    |((cast_u64 (F.fin P) : ℕ) : ℚ) - p| ≤ 1 + p / 2 ^ 53 := by
  rw [abs_le] at hP
  have hq : (0 : ℚ) ≤ p / 2 ^ 53 := by positivity
  simp only [cast_u64]
  split_ifs with h1 h2
  · exfalso
    have h2 : p / 2 ^ 53 < p := div_lt_self hp (by norm_num)
    linarith [hP.1]
  · rw [show (((U64_MAX : ℕ)) : ℚ) = 2 ^ 64 - 1 from by norm_num [U64_MAX]]
    rw [abs_le]
    constructor
    · linarith
    · linarith [hP.2]
  · have hP0 : 0 < P := not_le.mp h1
    have hfl0 : 0 ≤ ⌊P⌋ := Int.floor_nonneg.mpr hP0.le
    have hcast : (((⌊P⌋.toNat : ℕ)) : ℚ) = ((⌊P⌋ : ℤ) : ℚ) := by
      exact_mod_cast congrArg (fun z : ℤ => (z : ℚ)) (Int.toNat_of_nonneg hfl0)
    rw [hcast, abs_le]
    have hfle : ((⌊P⌋ : ℤ) : ℚ) ≤ P := Int.floor_le P
    have hflt : P < ((⌊P⌋ : ℤ) : ℚ) + 1 := Int.lt_floor_add_one P
    constructor
    · linarith [hP.1]
    · linarith [hP.2]

/-- Counterexample for C3: at the double `v = 4835703278458528 / 2^19 =
151115727451829 / 16384 ≈ 9.2234e9` (exactly representable: its numerator
`4835703278458528` lies in `[2^52, 2^53)`), the product `v * 1e9 =
295147905179353515625 / 32` lies in `[2^63, 2^64)` and rounds up by
`972.72` nanos — more than half the spacing `2^-20` of the doubles near
`v` — so the round trip returns `v + 2^-19` and the error is `2^-19 ≈
1.9e-6`, not below the claimed `1e-9`. -/
theorem nano_round_trip_counterexample :
    ((0 : ℚ) ≤ 151115727451829 / 16384
      ∧ (151115727451829 / 16384 : ℚ) * NANO_SCALE < 2 ^ 64)
    ∧ nano_to_f64_rounded (f64_to_nano_rounded (F.fin (151115727451829 / 16384)))
        = F.fin (4835703278458529 / 524288)
    ∧ ¬(|(4835703278458529 / 524288 : ℚ) - 151115727451829 / 16384| < 1 / 1000000000) := by
  have hfl1 : fl ((151115727451829 / 16384 : ℚ) * NANO_SCALE) = 9223372036854798336 := by
    rw [show (151115727451829 / 16384 : ℚ) * NANO_SCALE = 295147905179353515625 / 32 from by
      norm_num [NANO_SCALE]]
    rw [fl_eq_of_bounds _ 63 (by norm_num) (by norm_num)]
    rw [show ((295147905179353515625 : ℚ) / 32) / (2 : ℚ) ^ ((63 : ℤ) - 52)
        = 295147905179353515625 / 65536 from by norm_num]
    rw [rne_eq_add_one_of _ 4503599627370506 (by norm_num) (by norm_num)]
    push_cast
    norm_num
  have hfl2 : fl ((9223372036854798336 : ℚ)) = 9223372036854798336 :=
    fl_eq_self_of_int_mul _ 63 (by norm_num) (by norm_num) 4503599627370507 (by norm_num)
  have hfl3 : fl ((9223372036854798336 : ℚ) / NANO_SCALE) = 4835703278458529 / 524288 := by
    rw [show (9223372036854798336 : ℚ) / NANO_SCALE = 18014398509482028 / 1953125 from by
      norm_num [NANO_SCALE]]
    rw [fl_eq_of_bounds _ 33 (by norm_num) (by norm_num)]
    rw [show ((18014398509482028 : ℚ) / 1953125) / (2 : ℚ) ^ ((33 : ℤ) - 52)
        = 9444732965739313496064 / 1953125 from by norm_num]
    rw [rne_eq_add_one_of _ 4835703278458528 (by norm_num) (by norm_num)]
    push_cast
    norm_num
  refine ⟨⟨by norm_num, by norm_num [NANO_SCALE]⟩, ?_, ?_⟩
  · show nano_to_f64_rounded
        (cast_u64 (roundF (F.fin ((151115727451829 / 16384 : ℚ) * NANO_SCALE)))) = _
    rw [roundF_fin _ (by rw [hfl1, abs_of_pos (by norm_num)]; norm_num), hfl1]
    rw [show cast_u64 (F.fin (9223372036854798336 : ℚ)) = 9223372036854798336 from by
      simp only [cast_u64]
      rw [if_neg (by norm_num), if_neg (by norm_num)]
      rw [show ⌊(9223372036854798336 : ℚ)⌋ = 9223372036854798336 from by norm_num]
      rfl]
    show F.divR (F.fin (fl ((9223372036854798336 : ℕ) : ℚ))) (F.fin NANO_SCALE) = _
    rw [show (((9223372036854798336 : ℕ)) : ℚ) = (9223372036854798336 : ℚ) from by norm_num,
      hfl2]
    show roundF (F.div (F.fin (9223372036854798336 : ℚ)) (F.fin NANO_SCALE)) = _
    rw [show F.div (F.fin (9223372036854798336 : ℚ)) (F.fin NANO_SCALE)
        = F.fin ((9223372036854798336 : ℚ) / NANO_SCALE) from by
      simp only [F.div]
      rw [if_neg (show ¬(NANO_SCALE = 0) from by norm_num [NANO_SCALE])]]
    rw [roundF_fin _ (by rw [hfl3, abs_of_pos (by norm_num)]; norm_num), hfl3]
  · rw [show (4835703278458529 / 524288 : ℚ) - 151115727451829 / 16384
        = 1 / 524288 from by norm_num]
    rw [abs_of_pos (by norm_num)]
    norm_num

/-- Claim C3 (amended): under the rounding-faithful model of the codec,
for `0 ≤ v` with `v * 1e9 < 2^64` the round trip
`nano_to_f64_rounded (f64_to_nano_rounded v)` differs from `v` by less
than `1e-9` — the truncation to whole nanos — plus `(v + 1) / 2^50`,
which covers the three roundings (the f64 product `v * 1e9`, the
`u64 as f64` conversion and the division by `1e9`), each of relative
error at most `2^-53`.  The claim's absolute `1e-9` bound fails: see
`nano_round_trip_counterexample`, where the rounding term is what the
round trip actually loses. -/
theorem nano_round_trip_rounded (q r : ℚ) (h0 : 0 ≤ q) (h1 : q * NANO_SCALE < 2 ^ 64)
    (hr : nano_to_f64_rounded (f64_to_nano_rounded (F.fin q)) = F.fin r) :
    |r - q| < 1 / 1000000000 + (q + 1) / 2 ^ 50 := by
  have hNpos : (0 : ℚ) < NANO_SCALE := by norm_num [NANO_SCALE]
  have hp0 : 0 ≤ q * NANO_SCALE := mul_nonneg h0 hNpos.le
  rcases eq_or_lt_of_le hp0 with hz | hpz
  · have hq0 : q = 0 := by
      rcases mul_eq_zero.mp hz.symm with h | h
      · exact h
      · exact absurd h hNpos.ne'
    subst hq0
    have hpipe : nano_to_f64_rounded (f64_to_nano_rounded (F.fin 0)) = F.fin 0 := by
      show nano_to_f64_rounded (cast_u64 (roundF (F.fin ((0 : ℚ) * NANO_SCALE)))) = F.fin 0
      rw [show (0 : ℚ) * NANO_SCALE = 0 from by ring]
      rw [roundF_fin 0 (by rw [fl_zero]; norm_num), fl_zero]
      rw [show cast_u64 (F.fin (0 : ℚ)) = 0 from by simp only [cast_u64]; rw [if_pos le_rfl]]
      show F.divR (F.fin (fl ((0 : ℕ) : ℚ))) (F.fin NANO_SCALE) = F.fin 0
      rw [show (((0 : ℕ)) : ℚ) = (0 : ℚ) from by norm_num, fl_zero]
      show roundF (F.div (F.fin (0 : ℚ)) (F.fin NANO_SCALE)) = F.fin 0
      rw [show F.div (F.fin (0 : ℚ)) (F.fin NANO_SCALE) = F.fin ((0 : ℚ) / NANO_SCALE) from by
        simp only [F.div]
        rw [if_neg hNpos.ne']]
      rw [show (0 : ℚ) / NANO_SCALE = 0 from by norm_num]
      rw [roundF_fin 0 (by rw [fl_zero]; norm_num), fl_zero]
    rw [hpipe, F.fin.injEq] at hr
    rw [← hr]
    norm_num
  · have hPerr : |fl (q * NANO_SCALE) - q * NANO_SCALE| ≤ q * NANO_SCALE / 2 ^ 53 :=
      fl_sub_abs_le _ hpz
    have hple : q * NANO_SCALE / 2 ^ 53 ≤ q * NANO_SCALE := div_le_self hp0 (by norm_num)
    have hPerr' : q * NANO_SCALE - q * NANO_SCALE / 2 ^ 53 ≤ fl (q * NANO_SCALE)
        ∧ fl (q * NANO_SCALE) ≤ q * NANO_SCALE + q * NANO_SCALE / 2 ^ 53 := by
      rw [abs_le] at hPerr
      exact ⟨by linarith [hPerr.1], by linarith [hPerr.2]⟩
    have hPbig : |fl (q * NANO_SCALE)| < 2 ^ 1024 := by
      rw [abs_lt]
      constructor
      · linarith [hPerr'.1, hple]
      · linarith [hPerr'.2, hple, h1]
    have hured : f64_to_nano_rounded (F.fin q) = cast_u64 (F.fin (fl (q * NANO_SCALE))) := by
      show cast_u64 (roundF (F.fin (q * NANO_SCALE))) = _
      rw [roundF_fin _ hPbig]
    obtain ⟨u, hu⟩ : ∃ n : ℕ, cast_u64 (F.fin (fl (q * NANO_SCALE))) = n := ⟨_, rfl⟩
    have huerr : |((u : ℚ)) - q * NANO_SCALE| ≤ 1 + q * NANO_SCALE / 2 ^ 53 := by
      rw [← hu]
      exact cast_u64_fin_bound _ _ hpz h1 hPerr
    have hu0 : (0 : ℚ) ≤ (u : ℚ) := Nat.cast_nonneg u
    have hwerr : |fl (u : ℚ) - (u : ℚ)| ≤ (u : ℚ) / 2 ^ 53 := fl_sub_abs_le' _ hu0
    have hw0 : 0 ≤ fl (u : ℚ) := fl_nonneg _ hu0
    have hd0 : 0 ≤ fl (u : ℚ) / NANO_SCALE := div_nonneg hw0 hNpos.le
    have hderr : |fl (fl (u : ℚ) / NANO_SCALE) - fl (u : ℚ) / NANO_SCALE|
        ≤ fl (u : ℚ) / NANO_SCALE / 2 ^ 53 := fl_sub_abs_le' _ hd0
    have hule : (u : ℚ) / 2 ^ 53 ≤ (u : ℚ) := div_le_self hu0 (by norm_num)
    have hdb : fl (u : ℚ) / NANO_SCALE ≤ fl (u : ℚ) :=
      div_le_self hw0 (by norm_num [NANO_SCALE])
    have hdle : fl (u : ℚ) / NANO_SCALE / 2 ^ 53 ≤ fl (u : ℚ) / NANO_SCALE :=
      div_le_self hd0 (by norm_num)
    have hub : (u : ℚ) ≤ q * NANO_SCALE + 1 + q * NANO_SCALE / 2 ^ 53 := by
      rw [abs_le] at huerr
      linarith [huerr.2]
    have hwb : fl (u : ℚ) ≤ (u : ℚ) + (u : ℚ) / 2 ^ 53 := by
      rw [abs_le] at hwerr
      linarith [hwerr.2]
    have hrbig : |fl (fl (u : ℚ) / NANO_SCALE)| < 2 ^ 1024 := by
      rw [abs_le] at hderr
      rw [abs_lt]
      constructor
      · linarith [hderr.1, hdle, hd0]
      · linarith [hderr.2, hdle, hdb, hwb, hule, hub, hple, h1]
    have hnred : nano_to_f64_rounded u = F.fin (fl (fl (u : ℚ) / NANO_SCALE)) := by
      show roundF (F.div (F.fin (fl (u : ℚ))) (F.fin NANO_SCALE)) = _
      rw [show F.div (F.fin (fl (u : ℚ))) (F.fin NANO_SCALE)
          = F.fin (fl (u : ℚ) / NANO_SCALE) from by
        simp only [F.div]
        rw [if_neg hNpos.ne']]
      exact roundF_fin _ hrbig
    rw [hured, hu, hnred, F.fin.injEq] at hr
    rw [← hr]
    rw [abs_le] at hPerr huerr hwerr hderr
    have hN : NANO_SCALE = (1000000000 : ℚ) := rfl
    rw [hN] at h1 hPerr' hple hub huerr hderr hdb hdle hd0 ⊢
    rw [abs_lt]
    constructor
    · linarith [hderr.1, hderr.2, hwerr.1, hwerr.2, huerr.1, huerr.2, hple, hub, hwb, hule,
        hdb, hdle, hd0, h0, h1]
    · linarith [hderr.1, hderr.2, hwerr.1, hwerr.2, huerr.1, huerr.2, hple, hub, hwb, hule,
        hdb, hdle, hd0, h0, h1]

/-- Witness for the amended C3 at `v = 3/2`: the round trip under the
rounding model is exact there (`1.5e9` nanos and `3/2` are both
representable), so the error `0` is below the amended bound. -/
theorem nano_round_trip_rounded_witness :
    ((0 : ℚ) ≤ 3 / 2 ∧ (3 / 2 : ℚ) * NANO_SCALE < 2 ^ 64)
      ∧ |(3 / 2 : ℚ) - 3 / 2| < 1 / 1000000000 + (3 / 2 + 1) / 2 ^ 50 := by
  refine ⟨⟨by norm_num, by norm_num [NANO_SCALE]⟩, ?_⟩
  refine nano_round_trip_rounded (3 / 2) (3 / 2) (by norm_num) (by norm_num [NANO_SCALE]) ?_
  have hfl1 : fl ((3 / 2 : ℚ) * NANO_SCALE) = 1500000000 := by
    rw [show (3 / 2 : ℚ) * NANO_SCALE = 1500000000 from by norm_num [NANO_SCALE]]
    exact fl_eq_self_of_int_mul _ 30 (by norm_num) (by norm_num) 6291456000000000 (by norm_num)
  have hfl2 : fl ((1500000000 : ℚ)) = 1500000000 :=
    fl_eq_self_of_int_mul _ 30 (by norm_num) (by norm_num) 6291456000000000 (by norm_num)
  have hfl3 : fl ((1500000000 : ℚ) / NANO_SCALE) = 3 / 2 := by
    rw [show (1500000000 : ℚ) / NANO_SCALE = 3 / 2 from by norm_num [NANO_SCALE]]
    exact fl_eq_self_of_int_mul _ 0 (by norm_num) (by norm_num) 6755399441055744 (by norm_num)
  show nano_to_f64_rounded
      (cast_u64 (roundF (F.fin ((3 / 2 : ℚ) * NANO_SCALE)))) = F.fin (3 / 2)
  rw [roundF_fin _ (by rw [hfl1, abs_of_pos (by norm_num)]; norm_num), hfl1]
  rw [show cast_u64 (F.fin (1500000000 : ℚ)) = 1500000000 from by
    simp only [cast_u64]
    rw [if_neg (by norm_num), if_neg (by norm_num)]
    rw [show ⌊(1500000000 : ℚ)⌋ = 1500000000 from by norm_num]
    rfl]
  show F.divR (F.fin (fl ((1500000000 : ℕ) : ℚ))) (F.fin NANO_SCALE) = F.fin (3 / 2)
  rw [show (((1500000000 : ℕ)) : ℚ) = (1500000000 : ℚ) from by norm_num, hfl2]
  show roundF (F.div (F.fin (1500000000 : ℚ)) (F.fin NANO_SCALE)) = F.fin (3 / 2)
  rw [show F.div (F.fin (1500000000 : ℚ)) (F.fin NANO_SCALE)
      = F.fin ((1500000000 : ℚ) / NANO_SCALE) from by
    simp only [F.div]
    rw [if_neg (show ¬(NANO_SCALE = 0) from by norm_num [NANO_SCALE])]]
  rw [roundF_fin _ (by rw [hfl3, abs_of_pos (by norm_num)]; norm_num), hfl3]

/-- Counterexample for C4: the claim says every non-finite input produces 0,
but `f64_to_nano (+∞)` is `u64::MAX` (Rust's `as u64` cast saturates
upward), which is not 0. -/
theorem f64_to_nano_inf_counterexample :
    f64_to_nano F.inf = U64_MAX ∧ U64_MAX ≠ 0 := by
  constructor
  · simp [f64_to_nano, F.mul, cast_u64, NANO_SCALE]
  · norm_num [U64_MAX]

/-- Claim C4 (amended): for finite non-negative `v`, `f64_to_nano v` is
`⌊v · 1e9⌋` saturated to the u64 range; negative, NaN and `−∞` inputs
produce 0; `+∞` produces `u64::MAX`. -/
theorem f64_to_nano_characterization (v : F) :
    (∀ q : ℚ, v = F.fin q → 0 ≤ q →
      f64_to_nano v = min (⌊q * NANO_SCALE⌋).toNat U64_MAX)
    ∧ (∀ q : ℚ, v = F.fin q → q < 0 → f64_to_nano v = 0)
    ∧ (v = F.nan → f64_to_nano v = 0)
    ∧ (v = F.ninf → f64_to_nano v = 0)
    ∧ (v = F.inf → f64_to_nano v = U64_MAX) := by
  refine ⟨?_, ?_, ?_, ?_, ?_⟩
  · rintro q rfl h0
    unfold f64_to_nano cast_u64
    simp only [F.mul]
    split_ifs with ha hb
    · have hz : q * NANO_SCALE = 0 :=
        le_antisymm ha (mul_nonneg h0 (by norm_num [NANO_SCALE]))
      rw [hz]; simp
    · have hfl : (2 ^ 64 : ℤ) ≤ ⌊q * NANO_SCALE⌋ := Int.le_floor.mpr (by exact_mod_cast hb)
      have hnat : 2 ^ 64 ≤ ⌊q * NANO_SCALE⌋.toNat := by
        have h0' : (0 : ℤ) ≤ ⌊q * NANO_SCALE⌋ := le_trans (by norm_num) hfl
        omega
      unfold U64_MAX
      omega
    · have hfl : ⌊q * NANO_SCALE⌋ < (2 ^ 64 : ℤ) := Int.floor_lt.mpr (by exact_mod_cast not_le.mp hb)
      have hnat : ⌊q * NANO_SCALE⌋.toNat < 2 ^ 64 := by omega
      unfold U64_MAX
      omega
  · rintro q rfl hq
    unfold f64_to_nano cast_u64
    simp only [F.mul]
    rw [if_pos (mul_nonpos_of_nonpos_of_nonneg hq.le (by norm_num [NANO_SCALE]))]
  · rintro rfl; rfl
  · rintro rfl; rfl
  · rintro rfl
    simp [f64_to_nano, F.mul, cast_u64, NANO_SCALE]

/-- Witness for the amended C4 at `v = 3/2`. -/
theorem f64_to_nano_characterization_witness :
    (0 : ℚ) ≤ 3 / 2 ∧
      f64_to_nano (F.fin (3 / 2)) = min (⌊(3 / 2 : ℚ) * NANO_SCALE⌋).toNat U64_MAX :=
  ⟨by norm_num, (f64_to_nano_characterization (F.fin (3 / 2))).1 (3 / 2) rfl (by norm_num)⟩

/-!
## Instruction codec — `crates/shared/src/instruction.rs`

Quote frame (1049 bytes): `side(u8) | input_amount(u64 LE) | reserve_x(u64 LE)
| reserve_y(u64 LE) | storage(1024)`.  After-trade frame (1058 bytes):
`tag=2 | side | input(u64) | output(u64) | rx(u64) | ry(u64) | storage(1024)`.
Bytes are `Nat`; a `u64` is stored via its eight little-endian base-256
digits.
-/

/-- `u64::to_le_bytes`. -/
def u64_le_bytes (n : ℕ) : List ℕ :=
  [n % 256, n / 256 % 256, n / 65536 % 256, n / 16777216 % 256,
   n / 4294967296 % 256, n / 1099511627776 % 256, n / 281474976710656 % 256,
   n / 72057594037927936 % 256]

/-- `u64::from_le_bytes` generalised to any byte list (little-endian value). -/
def from_le : List ℕ → ℕ
  | [] => 0
  | b :: bs => b + 256 * from_le bs

lemma from_le_u64_le_bytes (n : ℕ) : from_le (u64_le_bytes n) = n % 2 ^ 64 := by
  simp only [u64_le_bytes, from_le]
  omega

/-- `encode_swap_instruction` from `instruction.rs`: writes the quote frame
into a zeroed 1049-byte buffer, copying at most 1024 storage bytes. -/
def encode_swap_instruction (side input_amount reserve_x reserve_y : ℕ)
    (storage : List ℕ) : List ℕ :=
  side :: (u64_le_bytes input_amount ++ u64_le_bytes reserve_x ++ u64_le_bytes reserve_y
    ++ (storage.take 1024 ++ List.replicate (1024 - storage.length) 0))

/-- `decode_instruction` from `instruction.rs`. -/
def decode_instruction (data : List ℕ) : ℕ × ℕ × ℕ × ℕ :=
  (data.getD 0 0, from_le ((data.drop 1).take 8), from_le ((data.drop 9).take 8),
   from_le ((data.drop 17).take 8))

/-- `encode_after_swap` from `instruction.rs` (tag byte 2 first). -/
def encode_after_swap (side input_amount output_amount reserve_x reserve_y : ℕ)
    (storage : List ℕ) : List ℕ :=
  2 :: side :: (u64_le_bytes input_amount ++ u64_le_bytes output_amount
    ++ u64_le_bytes reserve_x ++ u64_le_bytes reserve_y
    ++ (storage.take 1024 ++ List.replicate (1024 - storage.length) 0))

/-- `decode_after_swap` from `instruction.rs` (storage is the tail from
offset 34). -/
def decode_after_swap (data : List ℕ) : ℕ × ℕ × ℕ × ℕ × ℕ × List ℕ :=
  (data.getD 1 0, from_le ((data.drop 2).take 8), from_le ((data.drop 10).take 8),
   from_le ((data.drop 18).take 8), from_le ((data.drop 26).take 8), data.drop 34)

lemma swap_frame_tail (side a rx ry : ℕ) (storage : List ℕ) (hs : storage.length = 1024) :
    (encode_swap_instruction side a rx ry storage).drop 25 = storage := by
  simp [encode_swap_instruction, u64_le_bytes, hs, List.take_of_length_le]

lemma swap_frame_decode (side a rx ry : ℕ) (storage : List ℕ) :
    decode_instruction (encode_swap_instruction side a rx ry storage)
      = (side, a % 2 ^ 64, rx % 2 ^ 64, ry % 2 ^ 64) := by
  simp only [decode_instruction, encode_swap_instruction, u64_le_bytes,
    List.cons_append, List.drop_succ_cons, List.drop_zero, List.take_succ_cons,
    List.take_zero, List.getD_cons_zero, from_le, Prod.mk.injEq]
  refine ⟨trivial, ?_, ?_, ?_⟩ <;> omega

lemma swap_frame_length (side a rx ry : ℕ) (storage : List ℕ) (hs : storage.length = 1024) :
    (encode_swap_instruction side a rx ry storage).length = 1049 := by
  simp [encode_swap_instruction, u64_le_bytes, hs]

/-- Claim C8: the frame codec round-trips: decoding an encoded quote frame
returns the same `(side, input, reserve_x, reserve_y)` with the storage
bytes preserved at offsets 25..1049 and total length 1049, and decoding an
encoded after-trade frame (length 1058, tag 2) returns all five fields and
the storage unchanged. -/
theorem frame_codec_round_trip (side a out rx ry : ℕ) (storage : List ℕ)
    (hside : side < 256) (ha : a < 2 ^ 64) (hout : out < 2 ^ 64)
    (hrx : rx < 2 ^ 64) (hry : ry < 2 ^ 64) (hs : storage.length = 1024) :
    decode_instruction (encode_swap_instruction side a rx ry storage) = (side, a, rx, ry)
    ∧ (encode_swap_instruction side a rx ry storage).length = 1049
    ∧ (encode_swap_instruction side a rx ry storage).drop 25 = storage
    ∧ decode_after_swap (encode_after_swap side a out rx ry storage)
        = (side, a, out, rx, ry, storage)
    ∧ (encode_after_swap side a out rx ry storage).length = 1058
    ∧ (encode_after_swap side a out rx ry storage).getD 0 0 = 2 := by
  refine ⟨?_, swap_frame_length side a rx ry storage hs,
    swap_frame_tail side a rx ry storage hs, ?_, ?_, ?_⟩
  · rw [swap_frame_decode, Nat.mod_eq_of_lt ha, Nat.mod_eq_of_lt hrx, Nat.mod_eq_of_lt hry]
  · simp only [decode_after_swap, encode_after_swap, u64_le_bytes,
      List.cons_append, List.drop_succ_cons, List.drop_zero, List.take_succ_cons,
      List.take_zero, List.getD_cons_zero, List.getD_cons_succ, from_le, Prod.mk.injEq]
    refine ⟨trivial, ?_, ?_, ?_, ?_, ?_⟩
    · omega
    · omega
    · omega
    · omega
    · simp [hs, List.take_of_length_le]
  · simp [encode_after_swap, u64_le_bytes, hs]
  · rfl

/-- Witness for C8 at the test vector of `instruction.rs`
(`side=0, amt=1000, rx=2000, ry=3000` and a 0xAB-filled storage). -/
theorem frame_codec_round_trip_witness :
    decode_instruction
        (encode_swap_instruction 0 1000 2000 3000 (List.replicate 1024 171))
      = (0, 1000, 2000, 3000)
    ∧ (encode_swap_instruction 0 1000 2000 3000 (List.replicate 1024 171)).length = 1049
    ∧ (encode_swap_instruction 0 1000 2000 3000 (List.replicate 1024 171)).drop 25
      = List.replicate 1024 171
    ∧ decode_after_swap
        (encode_after_swap 0 1000 42 2000 3000 (List.replicate 1024 171))
      = (0, 1000, 42, 2000, 3000, List.replicate 1024 171)
    ∧ (encode_after_swap 0 1000 42 2000 3000 (List.replicate 1024 171)).length = 1058
    ∧ (encode_after_swap 0 1000 42 2000 3000 (List.replicate 1024 171)).getD 0 0 = 2 :=
  frame_codec_round_trip 0 1000 42 2000 3000 (List.replicate 1024 171)
    (by norm_num) (by norm_num) (by norm_num) (by norm_num) (by norm_num)
    (by rw [List.length_replicate])

/-!
## Reference curve — `crates/shared/src/normalizer.rs`

`compute_swap` reads `side`, `input_amount`, `reserve_x`, `reserve_y` and the
fee (bps) from the instruction bytes, widens everything to `u128`, and
applies the constant-product formula with a ceiling division.  The source's
`10000 - fee_bps` is `u128` subtraction; it is modelled with truncated `Nat`
subtraction, and the curve theorem assumes `fee_bps ≤ 10000` (larger fees
would underflow in the source).  The final `as u64` wrap is the `% 2 ^ 64`.
-/

/-- `compute_swap` from `normalizer.rs`. -/
def compute_swap (data : List ℕ) : ℕ :=
  if data.length < 25 then 0
  else
    let side := data.getD 0 0
    let input_amount := from_le ((data.drop 1).take 8)
    let reserve_x := from_le ((data.drop 9).take 8)
    let reserve_y := from_le ((data.drop 17).take 8)
    if reserve_x = 0 ∨ reserve_y = 0 then 0
    else
      let fee_bps := if 27 ≤ data.length then
          (let raw := from_le ((data.drop 25).take 2); if raw = 0 then 30 else raw)
        else 30
      let k := reserve_x * reserve_y
      if side = 0 then
        let net := input_amount * (10000 - fee_bps) / 10000
        let new_ry := reserve_y + net
        (reserve_x - (k + new_ry - 1) / new_ry) % 2 ^ 64
      else if side = 1 then
        let net := input_amount * (10000 - fee_bps) / 10000
        let new_rx := reserve_x + net
        (reserve_y - (k + new_rx - 1) / new_rx) % 2 ^ 64
      else 0

/-- The constant-product step with ceiling division never drains the output
reserve and never decreases the product `a * b`.  Here `a` is the output-side
reserve, `b` the input-side reserve and `net` the post-fee input. -/
lemma cp_output_bound (a b net : ℕ) (ha : 1 ≤ a) (hb : 1 ≤ b) :
    a - (a * b + (b + net) - 1) / (b + net) < a
    ∧ a * b ≤ (a - (a - (a * b + (b + net) - 1) / (b + net))) * (b + net) := by
  have hpos : 0 < b + net := by omega
  have hk1 : 1 ≤ a * b := Nat.one_le_iff_ne_zero.mpr (by positivity)
  have hdm := Nat.div_add_mod (a * b + (b + net) - 1) (b + net)
  have hmod := Nat.mod_lt (a * b + (b + net) - 1) hpos
  have hck : a * b ≤ (b + net) * ((a * b + (b + net) - 1) / (b + net)) := by omega
  have hq1 : 1 ≤ (a * b + (b + net) - 1) / (b + net) := by
    rw [Nat.le_div_iff_mul_le hpos]
    omega
  refine ⟨by omega, ?_⟩
  rcases le_or_lt ((a * b + (b + net) - 1) / (b + net)) a with hqa | hqa
  · have heq : a - (a - (a * b + (b + net) - 1) / (b + net))
        = (a * b + (b + net) - 1) / (b + net) := by omega
    rw [heq, mul_comm ((a * b + (b + net) - 1) / (b + net)) (b + net)]
    exact hck
  · have heq : a - (a - (a * b + (b + net) - 1) / (b + net)) = a := by omega
    rw [heq]
    exact Nat.mul_le_mul_left a (Nat.le_add_right b net)

lemma compute_swap_encoded_side0 (input rx ry : ℕ) (storage : List ℕ)
    (hin : input < 2 ^ 64) (hrx0 : 1 ≤ rx) (hrx : rx < 2 ^ 64)
    (hry0 : 1 ≤ ry) (hry : ry < 2 ^ 64) (hs : storage.length = 1024) :
    compute_swap (encode_swap_instruction 0 input rx ry storage)
      = (rx - (rx * ry + (ry + input * (10000 -
          (if from_le (storage.take 2) = 0 then 30 else from_le (storage.take 2))) / 10000)
          - 1) / (ry + input * (10000 -
          (if from_le (storage.take 2) = 0 then 30 else from_le (storage.take 2))) / 10000))
        % 2 ^ 64 := by
  have hlen := swap_frame_length 0 input rx ry storage hs
  have htail := swap_frame_tail 0 input rx ry storage hs
  have hdec := swap_frame_decode 0 input rx ry storage
  simp only [decode_instruction, Prod.mk.injEq] at hdec
  obtain ⟨h0, h1, h9, h17⟩ := hdec
  have hfee : from_le (((encode_swap_instruction 0 input rx ry storage).drop 25).take 2)
      = from_le (storage.take 2) := by rw [htail]
  unfold compute_swap
  rw [hlen, h0, h1, h9, h17,
    Nat.mod_eq_of_lt hin, Nat.mod_eq_of_lt hrx, Nat.mod_eq_of_lt hry, hfee,
    if_neg (show ¬(1049 < 25) by norm_num),
    if_neg (show ¬(rx = 0 ∨ ry = 0) by omega),
    if_pos (show 27 ≤ 1049 by norm_num),
    if_pos (show (0 : ℕ) = 0 from rfl)]

lemma compute_swap_encoded_side1 (input rx ry : ℕ) (storage : List ℕ)
    (hin : input < 2 ^ 64) (hrx0 : 1 ≤ rx) (hrx : rx < 2 ^ 64)
    (hry0 : 1 ≤ ry) (hry : ry < 2 ^ 64) (hs : storage.length = 1024) :
    compute_swap (encode_swap_instruction 1 input rx ry storage)
      = (ry - (rx * ry + (rx + input * (10000 -
          (if from_le (storage.take 2) = 0 then 30 else from_le (storage.take 2))) / 10000)
          - 1) / (rx + input * (10000 -
          (if from_le (storage.take 2) = 0 then 30 else from_le (storage.take 2))) / 10000))
        % 2 ^ 64 := by
  have hlen := swap_frame_length 1 input rx ry storage hs
  have htail := swap_frame_tail 1 input rx ry storage hs
  have hdec := swap_frame_decode 1 input rx ry storage
  simp only [decode_instruction, Prod.mk.injEq] at hdec
  obtain ⟨h0, h1, h9, h17⟩ := hdec
  have hfee : from_le (((encode_swap_instruction 1 input rx ry storage).drop 25).take 2)
      = from_le (storage.take 2) := by rw [htail]
  unfold compute_swap
  rw [hlen, h0, h1, h9, h17,
    Nat.mod_eq_of_lt hin, Nat.mod_eq_of_lt hrx, Nat.mod_eq_of_lt hry, hfee,
    if_neg (show ¬(1049 < 25) by norm_num),
    if_neg (show ¬(rx = 0 ∨ ry = 0) by omega),
    if_pos (show 27 ≤ 1049 by norm_num),
    if_neg (show ¬((1 : ℕ) = 0) by norm_num),
    if_pos (show (1 : ℕ) = 1 from rfl)]

/-- Claim C10: for the normalizer `compute_swap` on a well-formed frame with
both reserves positive (and the fee read from storage at most 10000 bps,
since larger raw fees would underflow the source's `10000 - fee_bps`), the
output is strictly below the output-side reserve, and the constant product
never decreases in exact integer arithmetic: with
`net = input * (10000 - fee) / 10000`, side 0 satisfies
`rx * ry ≤ (rx - out) * (ry + net)` and side 1 symmetrically. -/
theorem normalizer_curve_invariant (input rx ry : ℕ) (storage : List ℕ)
    (hin : input < 2 ^ 64) (hrx0 : 1 ≤ rx) (hrx : rx < 2 ^ 64)
    (hry0 : 1 ≤ ry) (hry : ry < 2 ^ 64) (hs : storage.length = 1024)
    (hfee : (if from_le (storage.take 2) = 0 then 30 else from_le (storage.take 2))
      ≤ 10000) :
    compute_swap (encode_swap_instruction 0 input rx ry storage) < rx
    ∧ rx * ry ≤ (rx - compute_swap (encode_swap_instruction 0 input rx ry storage))
        * (ry + input * (10000 -
            (if from_le (storage.take 2) = 0 then 30 else from_le (storage.take 2))) / 10000)
    ∧ compute_swap (encode_swap_instruction 1 input rx ry storage) < ry
    ∧ rx * ry ≤ (rx + input * (10000 -
            (if from_le (storage.take 2) = 0 then 30 else from_le (storage.take 2))) / 10000)
        * (ry - compute_swap (encode_swap_instruction 1 input rx ry storage)) := by
  have e0 := compute_swap_encoded_side0 input rx ry storage hin hrx0 hrx hry0 hry hs
  have e1 := compute_swap_encoded_side1 input rx ry storage hin hrx0 hrx hry0 hry hs
  rw [Nat.mod_eq_of_lt (lt_of_le_of_lt (Nat.sub_le _ _) hrx)] at e0
  rw [Nat.mod_eq_of_lt (lt_of_le_of_lt (Nat.sub_le _ _) hry)] at e1
  have hb0 := cp_output_bound rx ry (input * (10000 -
      (if from_le (storage.take 2) = 0 then 30 else from_le (storage.take 2))) / 10000)
    hrx0 hry0
  have hb1 := cp_output_bound ry rx (input * (10000 -
      (if from_le (storage.take 2) = 0 then 30 else from_le (storage.take 2))) / 10000)
    hry0 hrx0
  rw [mul_comm ry rx] at hb1
  refine ⟨?_, ?_, ?_, ?_⟩
  · rw [e0]; exact hb0.1
  · rw [e0]; exact hb0.2
  · rw [e1]; exact hb1.1
  · rw [e1]; exact hb1.2.trans_eq (mul_comm _ _)

/-- Witness for C10 at `input = 3, rx = 5, ry = 7` and zeroed storage
(so the default 30 bps fee is used). -/
theorem normalizer_curve_invariant_witness :
    compute_swap (encode_swap_instruction 0 3 5 7 (List.replicate 1024 0)) < 5
    ∧ 5 * 7 ≤ (5 - compute_swap (encode_swap_instruction 0 3 5 7 (List.replicate 1024 0)))
        * (7 + 3 * (10000 -
            (if from_le ((List.replicate 1024 0).take 2) = 0 then 30
             else from_le ((List.replicate 1024 0).take 2))) / 10000)
    ∧ compute_swap (encode_swap_instruction 1 3 5 7 (List.replicate 1024 0)) < 7
    ∧ 5 * 7 ≤ (5 + 3 * (10000 -
            (if from_le ((List.replicate 1024 0).take 2) = 0 then 30
             else from_le ((List.replicate 1024 0).take 2))) / 10000)
        * (7 - compute_swap (encode_swap_instruction 1 3 5 7 (List.replicate 1024 0))) :=
  normalizer_curve_invariant 3 5 7 (List.replicate 1024 0) (by norm_num) (by norm_num)
    (by norm_num) (by norm_num) (by norm_num) (by rw [List.length_replicate]) (by decide)

/-!
## AMM state — `crates/sim/src/amm.rs`

`BpfAmm` holds reserves (f64), a name, a 1024-byte storage buffer, the
current step, and a backend (`Backend::Bpf` or `Backend::Native`).  The
backend is abstracted as a state type `σ` with a quote call
(`call`, returning the raw nano output; failures already map to 0 as in
`unwrap_or(0)`) and an after-trade call (`call_after_swap`, which may
rewrite the storage buffer).  Quote calls receive the storage immutably,
matching the `&self.storage` borrow in the source.
-/

structure Amm (σ : Type) where
  callFn : ℕ → ℕ → ℕ → ℕ → List ℕ → σ → ℕ × σ
  afterFn : ℕ → ℕ → ℕ → ℕ → ℕ → ℕ → List ℕ → σ → List ℕ × σ
  backend : σ
  reserve_x : F
  reserve_y : F
  name : String
  storage : List ℕ
  current_step : ℕ

def MIN_RESERVE : ℚ := 1 / 10 ^ 12

/-- The raw backend output of the buy-side quote call (`self.call(0, ...)`). -/
def buy_quote_raw {σ : Type} (a : Amm σ) (input_y : F) : ℕ :=
  (a.callFn 0 (f64_to_nano input_y) (f64_to_nano a.reserve_x) (f64_to_nano a.reserve_y)
    a.storage a.backend).1

/-- The raw backend output of the sell-side quote call (`self.call(1, ...)`). -/
def sell_quote_raw {σ : Type} (a : Amm σ) (input_x : F) : ℕ :=
  (a.callFn 1 (f64_to_nano input_x) (f64_to_nano a.reserve_x) (f64_to_nano a.reserve_y)
    a.storage a.backend).1

/-- `BpfAmm::quote_buy_x`. -/
def quote_buy_x {σ : Type} (a : Amm σ) (input_y : F) : F × Amm σ :=
  if F.le input_y (F.fin 0) ∨ input_y.isFinite = false then (F.fin 0, a)
  else if F.le a.reserve_x (F.fin MIN_RESERVE) ∨ F.le a.reserve_y (F.fin MIN_RESERVE)
      ∨ a.reserve_x.isFinite = false ∨ a.reserve_y.isFinite = false then (F.fin 0, a)
  else
    let r := a.callFn 0 (f64_to_nano input_y) (f64_to_nano a.reserve_x)
      (f64_to_nano a.reserve_y) a.storage a.backend
    let quoted := nano_to_f64 r.1
    let a' := { a with backend := r.2 }
    if quoted.isFinite = false ∨ F.le quoted (F.fin 0) ∨ F.lt a.reserve_x quoted
    then (F.fin 0, a') else (quoted, a')

/-- `BpfAmm::quote_sell_x`. -/
def quote_sell_x {σ : Type} (a : Amm σ) (input_x : F) : F × Amm σ :=
  if F.le input_x (F.fin 0) ∨ input_x.isFinite = false then (F.fin 0, a)
  else if F.le a.reserve_x (F.fin MIN_RESERVE) ∨ F.le a.reserve_y (F.fin MIN_RESERVE)
      ∨ a.reserve_x.isFinite = false ∨ a.reserve_y.isFinite = false then (F.fin 0, a)
  else
    let r := a.callFn 1 (f64_to_nano input_x) (f64_to_nano a.reserve_x)
      (f64_to_nano a.reserve_y) a.storage a.backend
    let quoted := nano_to_f64 r.1
    let a' := { a with backend := r.2 }
    if quoted.isFinite = false ∨ F.le quoted (F.fin 0) ∨ F.lt a.reserve_y quoted
    then (F.fin 0, a') else (quoted, a')

/-- `BpfAmm::execute_buy_x`. -/
def execute_buy_x {σ : Type} (a : Amm σ) (input_y : F) : F × Amm σ :=
  let q := quote_buy_x a input_y
  let output_x := q.1
  let a1 := q.2
  if F.le input_y (F.fin 0) ∨ F.le output_x (F.fin 0)
      ∨ input_y.isFinite = false ∨ output_x.isFinite = false then (F.fin 0, a1)
  else if F.le a1.reserve_x output_x then (F.fin 0, a1)
  else
    let new_rx := F.sub a1.reserve_x output_x
    let new_ry := F.add a1.reserve_y input_y
    if F.le new_rx (F.fin MIN_RESERVE) ∨ F.le new_ry (F.fin MIN_RESERVE)
        ∨ new_rx.isFinite = false ∨ new_ry.isFinite = false then (F.fin 0, a1)
    else
      let a2 := { a1 with reserve_x := new_rx, reserve_y := new_ry }
      let r := a2.afterFn 0 (f64_to_nano input_y) (f64_to_nano output_x)
        (f64_to_nano new_rx) (f64_to_nano new_ry) a2.current_step a2.storage a2.backend
      (output_x, { a2 with storage := r.1, backend := r.2 })

/-- `BpfAmm::execute_sell_x`. -/
def execute_sell_x {σ : Type} (a : Amm σ) (input_x : F) : F × Amm σ :=
  let q := quote_sell_x a input_x
  let output_y := q.1
  let a1 := q.2
  if F.le input_x (F.fin 0) ∨ F.le output_y (F.fin 0)
      ∨ input_x.isFinite = false ∨ output_y.isFinite = false then (F.fin 0, a1)
  else if F.le a1.reserve_y output_y then (F.fin 0, a1)
  else
    let new_rx := F.add a1.reserve_x input_x
    let new_ry := F.sub a1.reserve_y output_y
    if F.le new_rx (F.fin MIN_RESERVE) ∨ F.le new_ry (F.fin MIN_RESERVE)
        ∨ new_rx.isFinite = false ∨ new_ry.isFinite = false then (F.fin 0, a1)
    else
      let a2 := { a1 with reserve_x := new_rx, reserve_y := new_ry }
      let r := a2.afterFn 1 (f64_to_nano input_x) (f64_to_nano output_y)
        (f64_to_nano new_rx) (f64_to_nano new_ry) a2.current_step a2.storage a2.backend
      (output_y, { a2 with storage := r.1, backend := r.2 })

lemma quote_buy_x_state {σ : Type} (a : Amm σ) (y : F) :
    (quote_buy_x a y).2.reserve_x = a.reserve_x
    ∧ (quote_buy_x a y).2.reserve_y = a.reserve_y
    ∧ (quote_buy_x a y).2.storage = a.storage := by
  simp only [quote_buy_x]
  split_ifs <;> exact ⟨rfl, rfl, rfl⟩

lemma quote_sell_x_state {σ : Type} (a : Amm σ) (x : F) :
    (quote_sell_x a x).2.reserve_x = a.reserve_x
    ∧ (quote_sell_x a x).2.reserve_y = a.reserve_y
    ∧ (quote_sell_x a x).2.storage = a.storage := by
  simp only [quote_sell_x]
  split_ifs <;> exact ⟨rfl, rfl, rfl⟩

/-- Claim C9: `quote_buy_x` and `quote_sell_x` leave `reserve_x`,
`reserve_y` and the storage buffer exactly unchanged (only the backend's
scratch state can change); reserves and storage are only modified by the
`execute_*` path. -/
theorem quote_frame_effect (σ : Type) (a : Amm σ) (y x : F) :
    (quote_buy_x a y).2.reserve_x = a.reserve_x
    ∧ (quote_buy_x a y).2.reserve_y = a.reserve_y
    ∧ (quote_buy_x a y).2.storage = a.storage
    ∧ (quote_sell_x a x).2.reserve_x = a.reserve_x
    ∧ (quote_sell_x a x).2.reserve_y = a.reserve_y
    ∧ (quote_sell_x a x).2.storage = a.storage :=
  ⟨(quote_buy_x_state a y).1, (quote_buy_x_state a y).2.1, (quote_buy_x_state a y).2.2,
   (quote_sell_x_state a x).1, (quote_sell_x_state a x).2.1, (quote_sell_x_state a x).2.2⟩

/-- Claim C1: if `execute_buy_x` / `execute_sell_x` returns a value `> 0`
then afterwards both reserves are finite and strictly above
`MIN_RESERVE = 1e-12`; if the call returns 0 (any rejection path), both
reserves are exactly unchanged. -/
theorem reserve_safety (σ : Type) (a : Amm σ) (y x : F) :
    (F.lt (F.fin 0) (execute_buy_x a y).1 →
      ∃ qx qy, (execute_buy_x a y).2.reserve_x = F.fin qx
        ∧ (execute_buy_x a y).2.reserve_y = F.fin qy
        ∧ MIN_RESERVE < qx ∧ MIN_RESERVE < qy)
    ∧ ((execute_buy_x a y).1 = F.fin 0 →
      (execute_buy_x a y).2.reserve_x = a.reserve_x
        ∧ (execute_buy_x a y).2.reserve_y = a.reserve_y)
    ∧ (F.lt (F.fin 0) (execute_sell_x a x).1 →
      ∃ qx qy, (execute_sell_x a x).2.reserve_x = F.fin qx
        ∧ (execute_sell_x a x).2.reserve_y = F.fin qy
        ∧ MIN_RESERVE < qx ∧ MIN_RESERVE < qy)
    ∧ ((execute_sell_x a x).1 = F.fin 0 →
      (execute_sell_x a x).2.reserve_x = a.reserve_x
        ∧ (execute_sell_x a x).2.reserve_y = a.reserve_y) := by
  refine ⟨?_, ?_, ?_, ?_⟩
  · simp only [execute_buy_x]
    split_ifs with h1 h2 h3
    · simp [F.lt]
    · simp [F.lt]
    · simp [F.lt]
    · intro _
      push_neg at h3
      obtain ⟨hG, hH, hI, hJ⟩ := h3
      replace hI := Bool.ne_false_iff.mp hI
      replace hJ := Bool.ne_false_iff.mp hJ
      obtain ⟨qx, hqx⟩ := F.isFinite_iff.mp hI
      obtain ⟨qy, hqy⟩ := F.isFinite_iff.mp hJ
      refine ⟨qx, qy, hqx, hqy, ?_, ?_⟩
      · rw [hqx] at hG
        simp only [F.le] at hG
        exact not_le.mp hG
      · rw [hqy] at hH
        simp only [F.le] at hH
        exact not_le.mp hH
  · have hq := quote_buy_x_state a y
    simp only [execute_buy_x]
    split_ifs with h1 h2 h3
    · exact fun _ => ⟨hq.1, hq.2.1⟩
    · exact fun _ => ⟨hq.1, hq.2.1⟩
    · exact fun _ => ⟨hq.1, hq.2.1⟩
    · intro h0
      push_neg at h1
      rw [h0] at h1
      exact absurd (F.le_fin_fin.mpr le_rfl) h1.2.1
  · simp only [execute_sell_x]
    split_ifs with h1 h2 h3
    · simp [F.lt]
    · simp [F.lt]
    · simp [F.lt]
    · intro _
      push_neg at h3
      obtain ⟨hG, hH, hI, hJ⟩ := h3
      replace hI := Bool.ne_false_iff.mp hI
      replace hJ := Bool.ne_false_iff.mp hJ
      obtain ⟨qx, hqx⟩ := F.isFinite_iff.mp hI
      obtain ⟨qy, hqy⟩ := F.isFinite_iff.mp hJ
      refine ⟨qx, qy, hqx, hqy, ?_, ?_⟩
      · rw [hqx] at hG
        simp only [F.le] at hG
        exact not_le.mp hG
      · rw [hqy] at hH
        simp only [F.le] at hH
        exact not_le.mp hH
  · have hq := quote_sell_x_state a x
    simp only [execute_sell_x]
    split_ifs with h1 h2 h3
    · exact fun _ => ⟨hq.1, hq.2.1⟩
    · exact fun _ => ⟨hq.1, hq.2.1⟩
    · exact fun _ => ⟨hq.1, hq.2.1⟩
    · intro h0
      push_neg at h1
      rw [h0] at h1
      exact absurd (F.le_fin_fin.mpr le_rfl) h1.2.1

/-- The full rejection condition of `quote_buy_x`, as enumerated by the
spec: bad input, bad reserves, or bad/too-large backend output. -/
def buy_quote_rejected {σ : Type} (a : Amm σ) (y : F) : Prop :=
  F.le y (F.fin 0) ∨ y.isFinite = false
  ∨ F.le a.reserve_x (F.fin MIN_RESERVE) ∨ F.le a.reserve_y (F.fin MIN_RESERVE)
  ∨ a.reserve_x.isFinite = false ∨ a.reserve_y.isFinite = false
  ∨ (nano_to_f64 (buy_quote_raw a y)).isFinite = false
  ∨ F.le (nano_to_f64 (buy_quote_raw a y)) (F.fin 0)
  ∨ F.lt a.reserve_x (nano_to_f64 (buy_quote_raw a y))

/-- The full rejection condition of `quote_sell_x` (output bounded by
`reserve_y`). -/
def sell_quote_rejected {σ : Type} (a : Amm σ) (x : F) : Prop :=
  F.le x (F.fin 0) ∨ x.isFinite = false
  ∨ F.le a.reserve_x (F.fin MIN_RESERVE) ∨ F.le a.reserve_y (F.fin MIN_RESERVE)
  ∨ a.reserve_x.isFinite = false ∨ a.reserve_y.isFinite = false
  ∨ (nano_to_f64 (sell_quote_raw a x)).isFinite = false
  ∨ F.le (nano_to_f64 (sell_quote_raw a x)) (F.fin 0)
  ∨ F.lt a.reserve_y (nano_to_f64 (sell_quote_raw a x))

/-- Claim C5: `quote_buy_x` returns 0 exactly when the input is non-positive
or non-finite, a reserve is at/below `MIN_RESERVE` or non-finite, or the
backend's converted output is non-finite, non-positive, or above
`reserve_x`; otherwise it returns exactly the converted backend output.
`quote_sell_x` is symmetric with `reserve_y` as the output-side bound. -/
theorem quote_zero_iff (σ : Type) (a : Amm σ) (y x : F) :
    ((quote_buy_x a y).1 = F.fin 0 ↔ buy_quote_rejected a y)
    ∧ (¬buy_quote_rejected a y →
        (quote_buy_x a y).1 = nano_to_f64 (buy_quote_raw a y))
    ∧ ((quote_sell_x a x).1 = F.fin 0 ↔ sell_quote_rejected a x)
    ∧ (¬sell_quote_rejected a x →
        (quote_sell_x a x).1 = nano_to_f64 (sell_quote_raw a x)) := by
  refine ⟨?_, ?_, ?_, ?_⟩
  · simp only [quote_buy_x, buy_quote_rejected, buy_quote_raw]
    split_ifs with h1 h2 h3
    · exact iff_of_true rfl (by tauto)
    · exact iff_of_true rfl (by tauto)
    · exact iff_of_true rfl (by tauto)
    · refine iff_of_false ?_ (by tauto)
      push_neg at h3
      intro heq
      have heq' : nano_to_f64 (a.callFn 0 (f64_to_nano y) (f64_to_nano a.reserve_x)
          (f64_to_nano a.reserve_y) a.storage a.backend).1 = F.fin 0 := heq
      rw [heq'] at h3
      exact absurd (F.le_fin_fin.mpr le_rfl) h3.2.1
  · intro hn
    simp only [buy_quote_rejected, buy_quote_raw] at hn
    simp only [quote_buy_x, buy_quote_raw]
    split_ifs with h1 h2 h3
    · tauto
    · tauto
    · tauto
    · rfl
  · simp only [quote_sell_x, sell_quote_rejected, sell_quote_raw]
    split_ifs with h1 h2 h3
    · exact iff_of_true rfl (by tauto)
    · exact iff_of_true rfl (by tauto)
    · exact iff_of_true rfl (by tauto)
    · refine iff_of_false ?_ (by tauto)
      push_neg at h3
      intro heq
      have heq' : nano_to_f64 (a.callFn 1 (f64_to_nano x) (f64_to_nano a.reserve_x)
          (f64_to_nano a.reserve_y) a.storage a.backend).1 = F.fin 0 := heq
      rw [heq'] at h3
      exact absurd (F.le_fin_fin.mpr le_rfl) h3.2.1
  · intro hn
    simp only [sell_quote_rejected, sell_quote_raw] at hn
    simp only [quote_sell_x, sell_quote_raw]
    split_ifs with h1 h2 h3
    · tauto
    · tauto
    · tauto
    · rfl

/-- A concrete AMM over the trivial backend state, whose quote call always
returns `call_out` nano and whose after-trade hook keeps storage. -/
def unit_amm (call_out : ℕ) (rx ry : ℚ) : Amm Unit :=
  { callFn := fun _ _ _ _ _ _ => (call_out, ())
    afterFn := fun _ _ _ _ _ _ st _ => (st, ())
    backend := ()
    reserve_x := F.fin rx
    reserve_y := F.fin ry
    name := "normalizer"
    storage := List.replicate 1024 0
    current_step := 0 }

/-- Witness for C1: a successful buy leaves reserves above `MIN_RESERVE`;
a rejected buy (backend quotes 0) leaves reserves unchanged. -/
theorem reserve_safety_witness :
    (∃ qx qy, (execute_buy_x (unit_amm 500000000 100 10000) (F.fin 1)).2.reserve_x = F.fin qx
      ∧ (execute_buy_x (unit_amm 500000000 100 10000) (F.fin 1)).2.reserve_y = F.fin qy
      ∧ MIN_RESERVE < qx ∧ MIN_RESERVE < qy)
    ∧ ((execute_buy_x (unit_amm 0 100 10000) (F.fin 1)).2.reserve_x
        = (unit_amm 0 100 10000).reserve_x
      ∧ (execute_buy_x (unit_amm 0 100 10000) (F.fin 1)).2.reserve_y
        = (unit_amm 0 100 10000).reserve_y) :=
  ⟨(reserve_safety Unit (unit_amm 500000000 100 10000) (F.fin 1) (F.fin 1)).1
      (by norm_num [execute_buy_x, quote_buy_x, unit_amm, nano_to_f64, F.le, F.lt,
        F.isFinite, F.sub, F.add, MIN_RESERVE, NANO_SCALE]),
   (reserve_safety Unit (unit_amm 0 100 10000) (F.fin 1) (F.fin 1)).2.1
      (by norm_num [execute_buy_x, quote_buy_x, unit_amm, nano_to_f64, F.le, F.lt,
        F.isFinite, F.sub, F.add, MIN_RESERVE, NANO_SCALE])⟩

/-- Witness for C5: with healthy inputs the buy quote returns exactly the
converted backend output, and a non-positive input is rejected with 0. -/
theorem quote_zero_iff_witness :
    (quote_buy_x (unit_amm 500000000 100 10000) (F.fin 1)).1
      = nano_to_f64 (buy_quote_raw (unit_amm 500000000 100 10000) (F.fin 1))
    ∧ (quote_buy_x (unit_amm 500000000 100 10000) (F.fin 0)).1 = F.fin 0 :=
  ⟨(quote_zero_iff Unit (unit_amm 500000000 100 10000) (F.fin 1) (F.fin 1)).2.1
      (by norm_num [buy_quote_rejected, buy_quote_raw, unit_amm, nano_to_f64, F.le, F.lt,
        F.isFinite, MIN_RESERVE, NANO_SCALE]),
   (quote_zero_iff Unit (unit_amm 500000000 100 10000) (F.fin 0) (F.fin 0)).1.mpr
      (Or.inl (F.le_fin_fin.mpr le_rfl))⟩

/-!
## Order router split search — `crates/sim/src/router.rs`

`maximize_split` golden-sections the split fraction `alpha ∈ [0, 1]`,
evaluating an objective that returns a `QuotePoint`.  The objective is kept
abstract here (in the source it is `quote_buy_split` / `quote_sell_split`
over the two AMMs).  Alphas are idealised rationals; the golden ratio
conjugate is the decimal value of the source's f64 literal
`0.618_033_988_749_894_8`.
-/

structure QuotePoint where
  in_sub : F
  in_norm : F
  out_sub : F
  out_norm : F
deriving DecidableEq

def GOLDEN_RATIO_CONJUGATE : ℚ := 6180339887498948 / 10000000000000000

def GOLDEN_MAX_ITERS : ℕ := 14

def GOLDEN_ALPHA_TOL : ℚ := 1 / 1000

/-- `OrderRouter::quote_score`: total output, with non-finite totals mapped
to `−∞`. -/
def quote_score (p : QuotePoint) : F :=
  let t := F.add p.out_sub p.out_norm
  if t.isFinite = true then t else F.ninf

/-- `OrderRouter::best_quote`: keep `b` only when its score is strictly
better. -/
def best_quote (a b : QuotePoint) : QuotePoint :=
  if F.lt (quote_score a) (quote_score b) then b else a

structure SplitState where
  left : ℚ
  right : ℚ
  x1 : ℚ
  x2 : ℚ
  q1 : QuotePoint
  q2 : QuotePoint
  best : QuotePoint
  sampled : List QuotePoint

/-- One iteration body of the golden-section loop in `maximize_split`. -/
def golden_step (evaluate : ℚ → QuotePoint) (st : SplitState) : SplitState :=
  if F.lt (quote_score st.q1) (quote_score st.q2) then
    let left := st.x1
    let x1 := st.x2
    let q1 := st.q2
    let x2 := left + GOLDEN_RATIO_CONJUGATE * (st.right - left)
    let q2 := evaluate x2
    { left := left, right := st.right, x1 := x1, x2 := x2, q1 := q1, q2 := q2,
      best := best_quote st.best q2, sampled := st.sampled ++ [q2] }
  else
    let right := st.x2
    let x2 := st.x1
    let q2 := st.q1
    let x1 := right - GOLDEN_RATIO_CONJUGATE * (right - st.left)
    let q1 := evaluate x1
    { left := st.left, right := right, x1 := x1, x2 := x2, q1 := q1, q2 := q2,
      best := best_quote st.best q1, sampled := st.sampled ++ [q1] }

/-- The `for _ in 0..GOLDEN_MAX_ITERS` loop of `maximize_split`: the only
break is `right - left <= GOLDEN_ALPHA_TOL`, checked at the top. -/
def golden_loop (evaluate : ℚ → QuotePoint) : ℕ → SplitState → SplitState
  | 0, st => st
  | n + 1, st =>
      if st.right - st.left ≤ GOLDEN_ALPHA_TOL then st
      else golden_loop evaluate n (golden_step evaluate st)

/-- `OrderRouter::maximize_split` from `router.rs`: probes both endpoints
and the two golden points, iterates, then evaluates the bracket center. -/
def maximize_split (evaluate : ℚ → QuotePoint) : QuotePoint × List QuotePoint :=
  let edge_left := evaluate 0
  let edge_right := evaluate 1
  let best0 := best_quote edge_left edge_right
  let x1 : ℚ := 1 - GOLDEN_RATIO_CONJUGATE * (1 - 0)
  let x2 : ℚ := 0 + GOLDEN_RATIO_CONJUGATE * (1 - 0)
  let q1 := evaluate x1
  let q2 := evaluate x2
  let best1 := best_quote (best_quote best0 q1) q2
  let st0 : SplitState :=
    { left := 0, right := 1, x1 := x1, x2 := x2, q1 := q1, q2 := q2,
      best := best1, sampled := [edge_left, edge_right, q1, q2] }
  let stF := golden_loop evaluate GOLDEN_MAX_ITERS st0
  let center := evaluate ((stF.left + stF.right) * (1 / 2))
  (best_quote stF.best center, stF.sampled ++ [center])

/-- Modelled from the spec (claim C2): "the two evaluated objective values
agree to within 1% relative gap". -/
def rel_gap_stop (s1 s2 : F) : Prop :=
  match s1, s2 with
  | F.fin a, F.fin b => |a - b| ≤ (1 / 100) * max |a| |b|
  | _, _ => False

instance : ∀ s1 s2 : F, Decidable (rel_gap_stop s1 s2) := by
  intro s1 s2
  cases s1 <;> cases s2 <;> simp only [rel_gap_stop] <;> infer_instance

/-- Modelled from the spec (claim C2): the loop with all three claimed
early stops — width tolerance, input width within 1% of the midpoint input
magnitude (over alpha, the input is proportional to alpha), and 1% relative
objective gap. -/
def golden_loop_claimed (evaluate : ℚ → QuotePoint) : ℕ → SplitState → SplitState
  | 0, st => st
  | n + 1, st =>
      if st.right - st.left ≤ GOLDEN_ALPHA_TOL
        ∨ st.right - st.left ≤ (1 / 100) * |(st.left + st.right) / 2|
        ∨ rel_gap_stop (quote_score st.q1) (quote_score st.q2) then st
      else golden_loop_claimed evaluate n (golden_step evaluate st)

/-- Modelled from the spec (claim C2): `maximize_split` as the claim
describes it, with the three early-stop conditions. -/
def maximize_split_claimed (evaluate : ℚ → QuotePoint) : QuotePoint × List QuotePoint :=
  let edge_left := evaluate 0
  let edge_right := evaluate 1
  let best0 := best_quote edge_left edge_right
  let x1 : ℚ := 1 - GOLDEN_RATIO_CONJUGATE * (1 - 0)
  let x2 : ℚ := 0 + GOLDEN_RATIO_CONJUGATE * (1 - 0)
  let q1 := evaluate x1
  let q2 := evaluate x2
  let best1 := best_quote (best_quote best0 q1) q2
  let st0 : SplitState :=
    { left := 0, right := 1, x1 := x1, x2 := x2, q1 := q1, q2 := q2,
      best := best1, sampled := [edge_left, edge_right, q1, q2] }
  let stF := golden_loop_claimed evaluate GOLDEN_MAX_ITERS st0
  let center := evaluate ((stF.left + stF.right) * (1 / 2))
  (best_quote stF.best center, stF.sampled ++ [center])

/-- The amended search loop, following the spec's words minus the two
early-stop conditions that the source does not have. -/
def golden_loop_spec (evaluate : ℚ → QuotePoint) : ℕ → SplitState → SplitState
  | 0, st => st
  | n + 1, st =>
      if st.right - st.left ≤ GOLDEN_ALPHA_TOL then st
      else golden_loop_spec evaluate n (golden_step evaluate st)

/-- The amended description of the split search: golden section over
`[0, 1]`, at most 14 iterations, early stop only on
`right - left ≤ 1e-3`. -/
def maximize_split_spec (evaluate : ℚ → QuotePoint) : QuotePoint × List QuotePoint :=
  let edge_left := evaluate 0
  let edge_right := evaluate 1
  let best0 := best_quote edge_left edge_right
  let x1 : ℚ := 1 - GOLDEN_RATIO_CONJUGATE * (1 - 0)
  let x2 : ℚ := 0 + GOLDEN_RATIO_CONJUGATE * (1 - 0)
  let q1 := evaluate x1
  let q2 := evaluate x2
  let best1 := best_quote (best_quote best0 q1) q2
  let st0 : SplitState :=
    { left := 0, right := 1, x1 := x1, x2 := x2, q1 := q1, q2 := q2,
      best := best1, sampled := [edge_left, edge_right, q1, q2] }
  let stF := golden_loop_spec evaluate GOLDEN_MAX_ITERS st0
  let center := evaluate ((stF.left + stF.right) * (1 / 2))
  (best_quote stF.best center, stF.sampled ++ [center])

lemma golden_step_sampled (evaluate : ℚ → QuotePoint) (st : SplitState) :
    (golden_step evaluate st).sampled.length = st.sampled.length + 1 := by
  unfold golden_step
  split_ifs <;> simp

lemma golden_loop_sampled_le (evaluate : ℚ → QuotePoint) :
    ∀ (n : ℕ) (st : SplitState),
      (golden_loop evaluate n st).sampled.length ≤ st.sampled.length + n := by
  intro n
  induction n with
  | zero => intro st; simp [golden_loop]
  | succ k ih =>
      intro st
      unfold golden_loop
      split_ifs
      · omega
      · calc (golden_loop evaluate k (golden_step evaluate st)).sampled.length
            ≤ (golden_step evaluate st).sampled.length + k := ih _
          _ = st.sampled.length + 1 + k := by rw [golden_step_sampled]
          _ ≤ st.sampled.length + (k + 1) := by omega

lemma golden_loop_eq_spec (evaluate : ℚ → QuotePoint) :
    ∀ (n : ℕ) (st : SplitState),
      golden_loop evaluate n st = golden_loop_spec evaluate n st := by
  intro n
  induction n with
  | zero => intro st; rfl
  | succ k ih =>
      intro st
      unfold golden_loop golden_loop_spec
      split_ifs
      · rfl
      · exact ih _

/-- A constant objective: every alpha quotes output 1 on each AMM. -/
def const_quote_point : QuotePoint := ⟨F.fin 0, F.fin 0, F.fin 1, F.fin 1⟩

/-- Counterexample for C2: on a constant objective the claimed 1%
relative-gap early stop would fire before the first iteration (the claimed
search samples only 5 points), but the source's `maximize_split` has no such
stop and performs all 14 iterations, sampling 19 points (0.618^14 > 1e-3,
so the width tolerance never fires either). -/
theorem router_split_stop_counterexample :
    (maximize_split (fun _ => const_quote_point)).2.length = 19
    ∧ (maximize_split_claimed (fun _ => const_quote_point)).2.length = 5 := by
  constructor
  · norm_num [maximize_split, golden_loop, golden_step, const_quote_point, quote_score,
      best_quote, GOLDEN_MAX_ITERS, GOLDEN_RATIO_CONJUGATE, GOLDEN_ALPHA_TOL,
      F.add, F.lt, F.isFinite]
  · norm_num [maximize_split_claimed, golden_loop_claimed, golden_step, const_quote_point,
      quote_score, rel_gap_stop, best_quote, GOLDEN_MAX_ITERS, GOLDEN_RATIO_CONJUGATE,
      GOLDEN_ALPHA_TOL, F.add, F.lt, F.isFinite]

/-- Claim C2 (amended): the router's split search is a golden-section
search over `alpha ∈ [0, 1]` that runs at most 14 iterations and stops
early only when `right − left ≤ 1e-3`; it evaluates the objective at most
19 times (two endpoints, two golden probes, one per iteration, and a final
center point). -/
theorem router_split_search_amended (evaluate : ℚ → QuotePoint) :
    maximize_split evaluate = maximize_split_spec evaluate
    ∧ (maximize_split evaluate).2.length ≤ 19 := by
  constructor
  · simp only [maximize_split, maximize_split_spec, golden_loop_eq_spec]
  · simp only [maximize_split, List.length_append, List.length_cons, List.length_nil]
    exact Nat.add_le_add_right
      (le_trans (golden_loop_sampled_le evaluate GOLDEN_MAX_ITERS _)
        (by simp [GOLDEN_MAX_ITERS])) 1

/-!
## Arbitrageur, normalizer closed form — `crates/sim/src/arbitrageur.rs`

For the AMM named "normalizer" the arbitrageur computes closed-form
candidate inputs from the constant-product-with-fee model.  `f64::sqrt` is
abstracted by a function `s : ℚ → ℚ` on finite non-negative arguments
(lifted to the special values by `fsqrt`); every structural statement below
holds for an arbitrary `s`.
-/

def MIN_INPUT : ℚ := 1 / 1000

/-- `MAX_INPUT_AMOUNT = (u64::MAX as f64 / 1e9) * 0.999_999`; the cast
`u64::MAX as f64` rounds to `2^64`. -/
def MAX_INPUT_AMOUNT : ℚ := 2 ^ 64 / 1000000000 * (999999 / 1000000)

/-- `f64::sqrt` given an exact square root `s` on finite non-negative
arguments: negative and `−∞` arguments give NaN, `+∞` stays `+∞`. -/
def fsqrt (s : ℚ → ℚ) : F → F
  | F.fin q => if q < 0 then F.nan else F.fin (s q)
  | F.inf => F.inf
  | F.ninf => F.nan
  | F.nan => F.nan

inductive ArbSide where
  | buyX : ArbSide
  | sellX : ArbSide
deriving DecidableEq

structure ArbCandidate where
  side : ArbSide
  input_amount : F
  expected_profit : F
deriving DecidableEq

structure ArbResult where
  amm_buys_x : Bool
  amount_x : F
  amount_y : F
  edge : F
deriving DecidableEq

/-- `Arbitrageur::normalizer_fee_bps`: little-endian u16 from storage bytes
0..2, defaulting to 30 when zero (or when storage is too short). -/
def normalizer_fee_bps {σ : Type} (a : Amm σ) : ℕ :=
  if 2 ≤ a.storage.length then
    let raw := a.storage.getD 0 0 + 256 * a.storage.getD 1 0
    if raw = 0 then 30 else raw
  else 30

/-- `Arbitrageur::plan_normalizer_buy_x`.  The `min_arb_profit` field is
passed explicitly; quoting threads the AMM state. -/
def plan_normalizer_buy_x {σ : Type} (s : ℚ → ℚ) (min_arb_profit : F)
    (a : Amm σ) (fair_price : F) : Option ArbCandidate × Amm σ :=
  let fee_bps : ℚ := (normalizer_fee_bps a : ℚ)
  let gamma : ℚ := (10000 - fee_bps) / 10000
  if gamma ≤ 0 then (none, a)
  else if a.reserve_x.isFinite = false ∨ a.reserve_y.isFinite = false
      ∨ F.le a.reserve_x (F.fin 0) ∨ F.le a.reserve_y (F.fin 0) then (none, a)
  else
    let target := fsqrt s (F.mul (F.mul (F.mul fair_price a.reserve_x) (F.fin gamma))
      a.reserve_y)
    if target.isFinite = false ∨ F.le target a.reserve_y then (none, a)
    else
      let input_y := F.clamp (F.div (F.sub target a.reserve_y) (F.fin gamma))
        MIN_INPUT MAX_INPUT_AMOUNT
      let q := quote_buy_x a input_y
      if F.le q.1 (F.fin 0) then (none, q.2)
      else
        let arb_profit := F.sub (F.mul q.1 fair_price) input_y
        if F.lt arb_profit min_arb_profit then (none, q.2)
        else (some ⟨ArbSide.buyX, input_y, arb_profit⟩, q.2)

/-- `Arbitrageur::plan_normalizer_sell_x`. -/
def plan_normalizer_sell_x {σ : Type} (s : ℚ → ℚ) (min_arb_profit : F)
    (a : Amm σ) (fair_price : F) : Option ArbCandidate × Amm σ :=
  let fee_bps : ℚ := (normalizer_fee_bps a : ℚ)
  let gamma : ℚ := (10000 - fee_bps) / 10000
  if gamma ≤ 0 then (none, a)
  else if a.reserve_x.isFinite = false ∨ a.reserve_y.isFinite = false
      ∨ F.le a.reserve_x (F.fin 0) ∨ F.le a.reserve_y (F.fin 0) then (none, a)
  else
    let target := fsqrt s (F.div (F.mul (F.mul a.reserve_y a.reserve_x) (F.fin gamma))
      fair_price)
    if target.isFinite = false ∨ F.le target a.reserve_x then (none, a)
    else
      let input_x := F.clamp (F.div (F.sub target a.reserve_x) (F.fin gamma))
        MIN_INPUT MAX_INPUT_AMOUNT
      let q := quote_sell_x a input_x
      if F.le q.1 (F.fin 0) then (none, q.2)
      else
        let arb_profit := F.sub q.1 (F.mul input_x fair_price)
        if F.lt arb_profit min_arb_profit then (none, q.2)
        else (some ⟨ArbSide.sellX, input_x, arb_profit⟩, q.2)

/-- `Arbitrageur::best_candidate`: the sell candidate wins only on strictly
greater expected profit. -/
def best_candidate (buy sell : Option ArbCandidate) : Option ArbCandidate :=
  match buy, sell with
  | some b, some s => if F.lt b.expected_profit s.expected_profit then some s else some b
  | some b, none => some b
  | none, some s => some s
  | none, none => none

/-- `Arbitrageur::execute_candidate`. -/
def execute_candidate {σ : Type} (a : Amm σ) (fair_price : F) (c : ArbCandidate) :
    Option ArbResult × Amm σ :=
  match c.side with
  | ArbSide.buyX =>
      let r := execute_buy_x a c.input_amount
      if F.le r.1 (F.fin 0) then (none, r.2)
      else (some ⟨false, r.1, c.input_amount,
        F.sub c.input_amount (F.mul r.1 fair_price)⟩, r.2)
  | ArbSide.sellX =>
      let r := execute_sell_x a c.input_amount
      if F.le r.1 (F.fin 0) then (none, r.2)
      else (some ⟨true, c.input_amount, r.1,
        F.sub (F.mul c.input_amount fair_price) r.1⟩, r.2)

/-- The `amm.name == "normalizer"` branch of `Arbitrageur::execute_arb`
(lines 60–86): plan both sides in closed form and execute the better
candidate. -/
def execute_arb_normalizer {σ : Type} (s : ℚ → ℚ) (min_arb_profit : F)
    (a : Amm σ) (fair_price : F) : Option ArbResult × Amm σ :=
  if fair_price.isFinite = false ∨ F.le fair_price (F.fin 0) then (none, a)
  else
    let pb := plan_normalizer_buy_x s min_arb_profit a fair_price
    let ps := plan_normalizer_sell_x s min_arb_profit pb.2 fair_price
    match best_candidate pb.1 ps.1 with
    | none => (none, ps.2)
    | some c => execute_candidate ps.2 fair_price c

/-- Claim C6: when arbitraging the "normalizer", the fee is read from
storage bytes 0..2 as a little-endian u16 (30 when the raw value is zero);
with `γ = (10000 − fee)/10000` the buy-X candidate input is
`(√(fair·rx·γ·ry) − ry)/γ` clamped to `[MIN_INPUT, MAX_INPUT_AMOUNT]` and is
only produced when the root strictly exceeds `ry`; the sell-X candidate is
symmetric with `√(ry·rx·γ/fair)` and `rx`; and the candidate with the
greater expected profit is the one executed. -/
theorem arb_normalizer_closed_form (σ : Type) (s : ℚ → ℚ) (minP fair : F)
    (a : Amm σ) (f rx ry : ℚ) :
    (2 ≤ a.storage.length →
      normalizer_fee_bps a
        = (if a.storage.getD 0 0 + 256 * a.storage.getD 1 0 = 0 then 30
           else a.storage.getD 0 0 + 256 * a.storage.getD 1 0))
    ∧ (∀ (c : ArbCandidate) (a' : Amm σ),
        fair = F.fin f → a.reserve_x = F.fin rx → a.reserve_y = F.fin ry →
        plan_normalizer_buy_x s minP a fair = (some c, a') →
        ry < s (f * rx * ((10000 - (normalizer_fee_bps a : ℚ)) / 10000) * ry)
        ∧ c.input_amount = F.fin (max MIN_INPUT
            (min ((s (f * rx * ((10000 - (normalizer_fee_bps a : ℚ)) / 10000) * ry) - ry)
              / ((10000 - (normalizer_fee_bps a : ℚ)) / 10000)) MAX_INPUT_AMOUNT)))
    ∧ (∀ (c : ArbCandidate) (a' : Amm σ),
        fair = F.fin f → a.reserve_x = F.fin rx → a.reserve_y = F.fin ry →
        plan_normalizer_sell_x s minP a fair = (some c, a') →
        rx < s (ry * rx * ((10000 - (normalizer_fee_bps a : ℚ)) / 10000) / f)
        ∧ c.input_amount = F.fin (max MIN_INPUT
            (min ((s (ry * rx * ((10000 - (normalizer_fee_bps a : ℚ)) / 10000) / f) - rx)
              / ((10000 - (normalizer_fee_bps a : ℚ)) / 10000)) MAX_INPUT_AMOUNT)))
    ∧ (∀ cb cs : ArbCandidate, best_candidate (some cb) (some cs)
        = some (if F.lt cb.expected_profit cs.expected_profit then cs else cb))
    ∧ (∀ cb cs : ArbCandidate, fair.isFinite = true → ¬F.le fair (F.fin 0) →
        (plan_normalizer_buy_x s minP a fair).1 = some cb →
        (plan_normalizer_sell_x s minP (plan_normalizer_buy_x s minP a fair).2 fair).1
          = some cs →
        execute_arb_normalizer s minP a fair
          = execute_candidate
              (plan_normalizer_sell_x s minP (plan_normalizer_buy_x s minP a fair).2 fair).2
              fair (if F.lt cb.expected_profit cs.expected_profit then cs else cb)) := by
  refine ⟨?_, ?_, ?_, ?_, ?_⟩
  · intro h2
    simp [normalizer_fee_bps, h2]
  · intro c a' hf hrx hry hplan
    unfold plan_normalizer_buy_x at hplan
    rw [hf, hrx, hry] at hplan
    simp only [F.mul, fsqrt] at hplan
    set g : ℚ := (10000 - (normalizer_fee_bps a : ℚ)) / 10000 with hg
    by_cases h1 : g ≤ 0
    · rw [if_pos h1] at hplan
      simp at hplan
    · rw [if_neg h1] at hplan
      by_cases h2 : (F.fin rx).isFinite = false ∨ (F.fin ry).isFinite = false
          ∨ F.le (F.fin rx) (F.fin 0) ∨ F.le (F.fin ry) (F.fin 0)
      · rw [if_pos h2] at hplan
        simp at hplan
      · rw [if_neg h2] at hplan
        by_cases h3 : f * rx * g * ry < 0
        · rw [if_pos h3] at hplan
          simp [F.isFinite] at hplan
        · rw [if_neg h3] at hplan
          by_cases h4 : (F.fin (s (f * rx * g * ry))).isFinite = false
              ∨ F.le (F.fin (s (f * rx * g * ry))) (F.fin ry)
          · rw [if_pos h4] at hplan
            simp at hplan
          · rw [if_neg h4] at hplan
            push_neg at h4
            refine ⟨not_le.mp h4.2, ?_⟩
            simp only [F.sub, F.div, F.clamp] at hplan
            rw [if_neg (show ¬g = 0 from fun h0 => h1 h0.le)] at hplan
            split_ifs at hplan with h6 h7
            · simp at hplan
            · simp at hplan
            · rw [Prod.mk.injEq] at hplan
              obtain ⟨hc, -⟩ := hplan
              rw [← Option.some.inj hc]
  · intro c a' hf hrx hry hplan
    unfold plan_normalizer_sell_x at hplan
    rw [hf, hrx, hry] at hplan
    simp only [F.mul, F.div] at hplan
    set g : ℚ := (10000 - (normalizer_fee_bps a : ℚ)) / 10000 with hg
    by_cases h1 : g ≤ 0
    · rw [if_pos h1] at hplan
      simp at hplan
    · rw [if_neg h1] at hplan
      by_cases h2 : (F.fin rx).isFinite = false ∨ (F.fin ry).isFinite = false
          ∨ F.le (F.fin rx) (F.fin 0) ∨ F.le (F.fin ry) (F.fin 0)
      · rw [if_pos h2] at hplan
        simp at hplan
      · rw [if_neg h2] at hplan
        by_cases hf0 : f = 0
        · rw [if_pos hf0] at hplan
          have hguard : (fsqrt s (if ry * rx * g = 0 then F.nan
              else if 0 < ry * rx * g then F.inf else F.ninf)).isFinite = false := by
            by_cases hz : ry * rx * g = 0
            · simp [hz, fsqrt, F.isFinite]
            · by_cases hpos : 0 < ry * rx * g
              · simp [hz, hpos, fsqrt, F.isFinite]
              · simp [hz, hpos, fsqrt, F.isFinite]
          rw [if_pos (Or.inl hguard)] at hplan
          simp at hplan
        · rw [if_neg hf0] at hplan
          simp only [fsqrt] at hplan
          by_cases h3 : ry * rx * g / f < 0
          · rw [if_pos h3] at hplan
            simp [F.isFinite] at hplan
          · rw [if_neg h3] at hplan
            by_cases h4 : (F.fin (s (ry * rx * g / f))).isFinite = false
                ∨ F.le (F.fin (s (ry * rx * g / f))) (F.fin rx)
            · rw [if_pos h4] at hplan
              simp at hplan
            · rw [if_neg h4] at hplan
              push_neg at h4
              refine ⟨not_le.mp h4.2, ?_⟩
              simp only [F.sub, F.div, F.clamp] at hplan
              rw [if_neg (show ¬g = 0 from fun h0 => h1 h0.le)] at hplan
              split_ifs at hplan with h6 h7
              · simp at hplan
              · simp at hplan
              · rw [Prod.mk.injEq] at hplan
                obtain ⟨hc, -⟩ := hplan
                rw [← Option.some.inj hc]
  · intro cb cs
    show (if F.lt cb.expected_profit cs.expected_profit then some cs else some cb)
      = some (if F.lt cb.expected_profit cs.expected_profit then cs else cb)
    split_ifs <;> rfl
  · intro cb cs hfin hle hcb hcs
    unfold execute_arb_normalizer
    have hcnd : ¬(fair.isFinite = false ∨ F.le fair (F.fin 0)) := by
      rintro (h | h)
      · rw [hfin] at h
        simp at h
      · exact hle h
    rw [if_neg hcnd]
    simp only []
    rw [hcb, hcs]
    simp only [best_candidate]
    split_ifs <;> rfl

lemma replicate_getD_zero (r i : ℕ) : (List.replicate r (0 : ℕ)).getD i 0 = 0 := by
  simp [List.getD]

/-- The concrete buy candidate produced in the C6 witness scenario. -/
def c6_candidate : ArbCandidate :=
  ⟨ArbSide.buyX, F.fin (397800 / 997), F.fin (1000 / 997)⟩

/-- Witness for C6: with exact square root, fair price 4, reserves
`(100, 1)` and default 30 bps fee, the buy plan produces exactly the
closed-form clamped input `(√(fair·rx·γ·ry) − ry)/γ = 397800/997`. -/
theorem arb_normalizer_closed_form_witness :
    (1 : ℚ) < (fun q : ℚ => q)
        (4 * 100 * ((10000 - (normalizer_fee_bps (unit_amm 100000000000 100 1) : ℚ)) / 10000) * 1)
    ∧ c6_candidate.input_amount = F.fin (max MIN_INPUT
        (min (((fun q : ℚ => q)
            (4 * 100 * ((10000 - (normalizer_fee_bps (unit_amm 100000000000 100 1) : ℚ)) / 10000) * 1)
            - 1)
          / ((10000 - (normalizer_fee_bps (unit_amm 100000000000 100 1) : ℚ)) / 10000))
          MAX_INPUT_AMOUNT)) :=
  (arb_normalizer_closed_form Unit (fun q => q) (F.fin 0) (F.fin 4)
      (unit_amm 100000000000 100 1) 4 100 1).2.1 c6_candidate (unit_amm 100000000000 100 1)
    rfl rfl rfl
    (by norm_num [plan_normalizer_buy_x, normalizer_fee_bps, unit_amm, c6_candidate, fsqrt,
      F.mul, F.sub, F.div, F.clamp, F.le, F.lt, F.isFinite, quote_buy_x, nano_to_f64,
      MIN_INPUT, MAX_INPUT_AMOUNT, MIN_RESERVE, NANO_SCALE, replicate_getD_zero])

/-!
## Shape validator — `crates/sim/src/curve_checks.rs`

`submission_shape_violation` filters the sampled `(input, output)` points
(finite, input strictly above `min_input`, output non-negative), sorts them
by input (Rust's stable `sort_by`; `insertionSort` on the same key is the
same stable sort), merges near-equal inputs keeping the larger output, and
then scans consecutive pairs for a monotonicity drop and consecutive
discrete slopes for a concavity rise.  `true` models "a violation message
is returned" (and, in `enforce_submission_monotonic_concave`, "panics"). -/

/-- The filtering pass of `submission_shape_violation`. -/
def shape_filter (min_input : ℚ) (points : List (F × F)) : List (ℚ × ℚ) :=
  points.filterMap (fun p =>
    match p.1, p.2 with
    | F.fin i, F.fin o => if min_input < i ∧ 0 ≤ o then some (i, o) else none
    | _, _ => none)

/-- The sorting pass (stable sort by the input coordinate). -/
def sort_points (l : List (ℚ × ℚ)) : List (ℚ × ℚ) :=
  List.insertionSort (fun p q => p.1 ≤ q.1) l

/-- The merging pass: near-equal inputs (relative 1e-9, absolute 1e-12)
are collapsed, keeping the larger output.  The accumulator is reversed. -/
def clean_merge : List (ℚ × ℚ) → List (ℚ × ℚ) → List (ℚ × ℚ)
  | acc, [] => acc.reverse
  | [], p :: rest => clean_merge [p] rest
  | (pi, po) :: accRest, (i, o) :: rest =>
      let eps := max (1 / 10 ^ 12) ((1 / 10 ^ 9) * max (max |pi| |i|) 1)
      if |i - pi| ≤ eps then clean_merge ((pi, if po < o then o else po) :: accRest) rest
      else clean_merge ((i, o) :: (pi, po) :: accRest) rest

/-- The cleaned point list the two scans run over. -/
def cleaned_points (min_input : ℚ) (points : List (F × F)) : List (ℚ × ℚ) :=
  clean_merge [] (sort_points (shape_filter min_input points))

/-- `allowed_drop = OUTPUT_ABS_TOL + OUTPUT_REL_TOL * max(|out_a|, |out_b|, 1)`. -/
def mono_tol (oa ob : ℚ) : ℚ := 1 / 10 ^ 9 + (1 / 10 ^ 9) * max (max |oa| |ob|) 1

/-- The monotonicity scan over consecutive cleaned points. -/
def mono_scan : List (ℚ × ℚ) → Bool
  | (ia, oa) :: (ib, ob) :: rest =>
      if ia < ib ∧ ob + mono_tol oa ob < oa then true else mono_scan ((ib, ob) :: rest)
  | _ => false

/-- `allowed_rise = SLOPE_ABS_TOL + SLOPE_REL_TOL * max(|prev|, |slope|, 1e-6)`. -/
def slope_rise_tol (p sl : ℚ) : ℚ := 1 / 10 ^ 8 + (1 / 10 ^ 2) * max (max |p| |sl|) (1 / 10 ^ 6)

/-- The concavity scan: segments with `dx ≤ 1e-12` are skipped without
updating the previous slope. -/
def conc_scan : Option ℚ → List (ℚ × ℚ) → Bool
  | prev, (ia, oa) :: (ib, ob) :: rest =>
      if ib - ia ≤ 1 / 10 ^ 12 then conc_scan prev ((ib, ob) :: rest)
      else
        match prev with
        | some p =>
            if p + slope_rise_tol p ((ob - oa) / (ib - ia)) < (ob - oa) / (ib - ia) then true
            else conc_scan (some ((ob - oa) / (ib - ia))) ((ib, ob) :: rest)
        | none => conc_scan (some ((ob - oa) / (ib - ia))) ((ib, ob) :: rest)
  | _, _ => false

/-- `submission_shape_violation` from `curve_checks.rs` (`true` = the
source returns `Some(message)`). -/
def submission_shape_violation (points : List (F × F)) (min_input : ℚ) : Bool :=
  mono_scan (cleaned_points min_input points)
    || conc_scan none (cleaned_points min_input points)

/-- `enforce_submission_monotonic_concave` (`true` = the source panics). -/
def enforce_submission_monotonic_concave (amm_name : String) (points : List (F × F))
    (min_input : ℚ) : Bool :=
  if amm_name = "submission" then submission_shape_violation points min_input else false

/-- Consecutive pairs of a list. -/
def adjacent_pairs {α : Type} (l : List α) : List (α × α) := l.zip l.tail

/-- The discrete slope sequence of the cleaned list, with `dx ≤ 1e-12`
segments dropped (matching the scan's `continue`). -/
def slopes_of (l : List (ℚ × ℚ)) : List ℚ :=
  (adjacent_pairs l).filterMap (fun p =>
    if p.2.1 - p.1.1 ≤ 1 / 10 ^ 12 then none
    else some ((p.2.2 - p.1.2) / (p.2.1 - p.1.1)))

/-- The slope scan over the extracted slope list. -/
def slope_scan : Option ℚ → List ℚ → Bool
  | _, [] => false
  | none, sl :: rest => slope_scan (some sl) rest
  | some p, sl :: rest =>
      if p + slope_rise_tol p sl < sl then true else slope_scan (some sl) rest

lemma adjacent_pairs_cons₂ {α : Type} (a b : α) (l : List α) :
    adjacent_pairs (a :: b :: l) = (a, b) :: adjacent_pairs (b :: l) := rfl

lemma mono_scan_iff : ∀ l : List (ℚ × ℚ),
    mono_scan l = true ↔
      ∃ p ∈ adjacent_pairs l, p.1.1 < p.2.1 ∧ p.2.2 + mono_tol p.1.2 p.2.2 < p.1.2 := by
  intro l
  induction l with
  | nil => simp [mono_scan, adjacent_pairs]
  | cons a tl ih =>
      obtain ⟨ia, oa⟩ := a
      cases tl with
      | nil => simp [mono_scan, adjacent_pairs]
      | cons b rest =>
          obtain ⟨ib, ob⟩ := b
          rw [show mono_scan ((ia, oa) :: (ib, ob) :: rest)
              = if ia < ib ∧ ob + mono_tol oa ob < oa then true
                else mono_scan ((ib, ob) :: rest) from rfl]
          rw [adjacent_pairs_cons₂]
          by_cases h : ia < ib ∧ ob + mono_tol oa ob < oa
          · rw [if_pos h]
            exact iff_of_true rfl ⟨((ia, oa), (ib, ob)), List.mem_cons_self _ _, h⟩
          · rw [if_neg h, ih]
            simp only [List.mem_cons, exists_eq_or_imp]
            constructor
            · exact Or.inr
            · rintro (hc | hx)
              · exact absurd hc h
              · exact hx

lemma slopes_of_cons₂ (ia oa ib ob : ℚ) (l : List (ℚ × ℚ)) :
    slopes_of ((ia, oa) :: (ib, ob) :: l)
      = if ib - ia ≤ 1 / 10 ^ 12 then slopes_of ((ib, ob) :: l)
        else ((ob - oa) / (ib - ia)) :: slopes_of ((ib, ob) :: l) := by
  simp only [slopes_of, adjacent_pairs_cons₂, List.filterMap_cons]
  by_cases h : ib - ia ≤ 1 / 10 ^ 12
  · rw [if_pos h, if_pos h]
  · rw [if_neg h, if_neg h]

lemma conc_scan_eq_slope_scan : ∀ (l : List (ℚ × ℚ)) (prev : Option ℚ),
    conc_scan prev l = slope_scan prev (slopes_of l) := by
  intro l
  induction l with
  | nil => intro prev; cases prev <;> rfl
  | cons a tl ih =>
      obtain ⟨ia, oa⟩ := a
      cases tl with
      | nil => intro prev; cases prev <;> rfl
      | cons b rest =>
          obtain ⟨ib, ob⟩ := b
          intro prev
          rw [slopes_of_cons₂]
          by_cases h : ib - ia ≤ 1 / 10 ^ 12
          · rw [if_pos h]
            have hl : conc_scan prev ((ia, oa) :: (ib, ob) :: rest)
                = conc_scan prev ((ib, ob) :: rest) := by
              simp only [conc_scan]
              rw [if_pos h]
            rw [hl]
            exact ih prev
          · rw [if_neg h]
            have hl : conc_scan prev ((ia, oa) :: (ib, ob) :: rest)
                = (match prev with
                   | some p =>
                       if p + slope_rise_tol p ((ob - oa) / (ib - ia))
                           < (ob - oa) / (ib - ia) then true
                       else conc_scan (some ((ob - oa) / (ib - ia))) ((ib, ob) :: rest)
                   | none => conc_scan (some ((ob - oa) / (ib - ia))) ((ib, ob) :: rest)) := by
              simp only [conc_scan]
              rw [if_neg h]
            rw [hl]
            cases prev with
            | none => exact ih _
            | some p =>
                have hr : slope_scan (some p)
                      (((ob - oa) / (ib - ia)) :: slopes_of ((ib, ob) :: rest))
                    = if p + slope_rise_tol p ((ob - oa) / (ib - ia)) < (ob - oa) / (ib - ia)
                      then true
                      else slope_scan (some ((ob - oa) / (ib - ia)))
                        (slopes_of ((ib, ob) :: rest)) := rfl
                have hm : (match some p with
                    | some q =>
                        if q + slope_rise_tol q ((ob - oa) / (ib - ia))
                            < (ob - oa) / (ib - ia) then true
                        else conc_scan (some ((ob - oa) / (ib - ia))) ((ib, ob) :: rest)
                    | none => conc_scan (some ((ob - oa) / (ib - ia))) ((ib, ob) :: rest))
                    = (if p + slope_rise_tol p ((ob - oa) / (ib - ia))
                        < (ob - oa) / (ib - ia) then true
                      else conc_scan (some ((ob - oa) / (ib - ia))) ((ib, ob) :: rest)) := rfl
                rw [hm, hr]
                split_ifs
                · rfl
                · exact ih _

lemma slope_scan_some_iff : ∀ (S : List ℚ) (p : ℚ),
    slope_scan (some p) S = true ↔
      ∃ q ∈ adjacent_pairs (p :: S), q.1 + slope_rise_tol q.1 q.2 < q.2 := by
  intro S
  induction S with
  | nil => intro p; simp [slope_scan, adjacent_pairs]
  | cons sl rest ih =>
      intro p
      rw [show slope_scan (some p) (sl :: rest)
          = if p + slope_rise_tol p sl < sl then true
            else slope_scan (some sl) rest from rfl]
      rw [adjacent_pairs_cons₂]
      by_cases h : p + slope_rise_tol p sl < sl
      · rw [if_pos h]
        exact iff_of_true rfl ⟨(p, sl), List.mem_cons_self _ _, h⟩
      · rw [if_neg h, ih]
        simp only [List.mem_cons, exists_eq_or_imp]
        constructor
        · exact Or.inr
        · rintro (hc | hx)
          · exact absurd hc h
          · exact hx

lemma slope_scan_none_iff (S : List ℚ) :
    slope_scan none S = true ↔
      ∃ q ∈ adjacent_pairs S, q.1 + slope_rise_tol q.1 q.2 < q.2 := by
  cases S with
  | nil => simp [slope_scan, adjacent_pairs]
  | cons sl rest =>
      rw [show slope_scan none (sl :: rest) = slope_scan (some sl) rest from rfl]
      exact slope_scan_some_iff rest sl

/-- Claim C7: the shape validator can only panic for the AMM labeled
"submission" (any other label never panics, whatever the samples), and over
the filtered, sorted, merged point list it reports a violation exactly when
some consecutive pair with increasing input drops by more than the
monotonicity tolerance, or some discrete slope rises above the previous one
by more than the concavity tolerance. -/
theorem shape_validator_characterization :
    (∀ (amm_name : String) (points : List (F × F)) (min_input : ℚ),
      enforce_submission_monotonic_concave amm_name points min_input = true →
        amm_name = "submission")
    ∧ (∀ (amm_name : String) (points : List (F × F)) (min_input : ℚ),
      amm_name ≠ "submission" →
        enforce_submission_monotonic_concave amm_name points min_input = false)
    ∧ (∀ (points : List (F × F)) (min_input : ℚ),
      submission_shape_violation points min_input = true ↔
        (∃ p ∈ adjacent_pairs (cleaned_points min_input points),
          p.1.1 < p.2.1 ∧ p.2.2 + mono_tol p.1.2 p.2.2 < p.1.2)
        ∨ (∃ q ∈ adjacent_pairs (slopes_of (cleaned_points min_input points)),
          q.1 + slope_rise_tol q.1 q.2 < q.2)) := by
  refine ⟨?_, ?_, ?_⟩
  · intro amm_name points min_input h
    by_contra hne
    rw [enforce_submission_monotonic_concave, if_neg hne] at h
    exact Bool.false_ne_true h
  · intro amm_name points min_input hne
    rw [enforce_submission_monotonic_concave, if_neg hne]
  · intro points min_input
    rw [submission_shape_violation, Bool.or_eq_true, mono_scan_iff,
      conc_scan_eq_slope_scan, slope_scan_none_iff]

/-- Sample points with an obvious monotonicity drop. -/
def c7_points : List (F × F) :=
  [(F.fin 1, F.fin 10), (F.fin 2, F.fin 1), (F.fin 3, F.fin (1 / 2))]

/-- Witness for C7: a non-submission label never panics, and the dropping
sample set is reported as a violation. -/
theorem shape_validator_characterization_witness :
    enforce_submission_monotonic_concave "normalizer" c7_points (1 / 1000) = false
    ∧ submission_shape_violation c7_points (1 / 1000) = true :=
  ⟨shape_validator_characterization.2.1 "normalizer" c7_points (1 / 1000) (by decide),
   (shape_validator_characterization.2.2 c7_points (1 / 1000)).mpr
     (Or.inl ⟨((1, 10), (2, 1)),
       by norm_num [cleaned_points, clean_merge, sort_points, shape_filter, c7_points,
         adjacent_pairs, List.insertionSort, List.orderedInsert, List.filterMap_cons,
         List.filterMap_nil, List.zip_cons_cons, List.zip_nil_right, List.tail_cons,
         List.mem_cons],
       by norm_num [mono_tol]⟩)⟩
